import Mathlib

/-!
# Verification of the sharenote-planner core library against its specification

The repository's pages (`app.py`, `pages/⛏️ Planner.py`, `pages/🧪 Arithmetic_Lab.py`)
are a presentation layer over a core library `sharenotelib` whose source is not part
of the checked tree; only its callers are.  Following the specification (spec.md §3–§4),
the core data model and operations are modelled here from the spec's words, and the
UI helpers that do appear in the tree (`_compute_best_note` in the Planner page) are
embedded from their source.  Reals stand in for Python floats (the spec's formulas are
exact real formulas); integers are unbounded as in Python.
-/

namespace SharenotePlanner

/-- Constant from `app.py` / `⛏️ Planner.py`: `MIN_ZEROS = 1`. -/
def MIN_ZEROS : ℤ := 1

/-- Constant from `app.py` / `⛏️ Planner.py`: `MAX_ZEROS = 256`. -/
def MAX_ZEROS : ℤ := 256

/-- Modelled from the spec: `MIN_CENTZ` (§3 invariant lower bound for cents),
exported by `sharenotelib` and imported by the Arithmetic Lab page. -/
def MIN_CENTZ : ℤ := 0

/-- Modelled from the spec: `MAX_CENTZ = 99` (§3 invariant upper bound for cents). -/
def MAX_CENTZ : ℤ := 99

/-- Modelled from the spec: a Sharenote value `{z, cents}` (§3); the library's
`Sharenote` dataclass is not in the tree. -/
structure Sharenote where
  z : ℤ
  cents : ℤ
deriving DecidableEq, Repr

/-- Modelled from the spec: `zbits = z + cents/100` (§3), as an exact rational. -/
def Sharenote.zbits (n : Sharenote) : ℚ := (n.z : ℚ) + (n.cents : ℚ) / 100

/-- §3 invariants: `MIN_ZEROS ≤ z ≤ MAX_ZEROS` and `0 ≤ cents ≤ MAX_CENTZ`. -/
def Sharenote.Valid (n : Sharenote) : Prop :=
  MIN_ZEROS ≤ n.z ∧ n.z ≤ MAX_ZEROS ∧ MIN_CENTZ ≤ n.cents ∧ n.cents ≤ MAX_CENTZ

instance (n : Sharenote) : Decidable n.Valid := by
  unfold Sharenote.Valid
  infer_instance

/-- Modelled from the spec: the closed error taxonomy of §7; `sharenotelib`'s
`SharenoteError` hierarchy is not in the tree. -/
inductive SharenoteError where
  | invalidLabel
  | outOfRange
  | nonPositiveDifference
  | nonPositiveFactor
  | invalidNBits
  | hashrateTooLow
  | invalidReliabilityId
  | nonPositiveWindow
deriving DecidableEq, Repr

/-- Modelled from the spec: each error carries a stable message (§7, "error messages
are part of the observable contract"); the exact wording is not in the tree, so a
fixed representative string is assigned per kind. -/
def SharenoteError.message : SharenoteError → String
  | .invalidLabel => "invalid label"
  | .outOfRange => "out of range"
  | .nonPositiveDifference => "non-positive difference"
  | .nonPositiveFactor => "non-positive factor"
  | .invalidNBits => "invalid nBits"
  | .hashrateTooLow => "hashrate too low"
  | .invalidReliabilityId => "invalid reliability id"
  | .nonPositiveWindow => "non-positive window"

/-- Modelled from the spec (§4.2): quantization of a continuous `zbits` value,
before range validation: `z = ⌊zbits⌋`, `cents = round((zbits − ⌊zbits⌋) × 100)`,
and a carry to 100 increments `z` and resets `cents` to 0. -/
noncomputable def quantize_nearest (x : ℝ) : Sharenote :=
  let z0 : ℤ := ⌊x⌋
  let c0 : ℤ := round ((x - (z0 : ℝ)) * 100)
  if c0 = 100 then ⟨z0 + 1, 0⟩ else ⟨z0, c0⟩

/-- Modelled from the spec (§4.2): `note_from_zbits(zbits)` requires `zbits` finite
and non-negative, quantizes by the §4.2 rounding rule, and fails `OutOfRange` when
the result violates the §3 invariants.  (Reals are always finite; the non-negativity
guard is kept explicit.) -/
noncomputable def note_from_zbits (x : ℝ) : Except SharenoteError Sharenote :=
  if x < 0 then .error .outOfRange
  else
    let n := quantize_nearest x
    if n.Valid then .ok n else .error .outOfRange

/-- Modelled from the spec (§4.2): `expected_hashes_for_note(note) = 2^zbits`. -/
noncomputable def expected_hashes_for_note (n : Sharenote) : ℝ :=
  (2 : ℝ) ^ ((n.zbits : ℝ))

/-- Modelled from the spec (§3/§4.6): a member of the fixed reliability catalog,
`{id, label, k}` with `k` a positive real. -/
structure ReliabilityLevel where
  id : String
  label : String
  k : ℝ

/-- Modelled from the spec (§4.6): the fixed, ordered, non-empty catalog
Mean (k=1.0), Usually/90% (k=−ln 0.10), Often/95% (k=−ln 0.05),
Very likely/99% (k=−ln 0.01), Almost certain/99.9% (k=−ln 0.001).
Level ids are not in the tree; distinct representative strings are used. -/
noncomputable def get_reliability_levels : List ReliabilityLevel :=
  [⟨"mean", "On average", 1.0⟩,
   ⟨"usually", "Usually (90%)", -(Real.log 0.10)⟩,
   ⟨"often", "Often (95%)", -(Real.log 0.05)⟩,
   ⟨"very_likely", "Very likely (99%)", -(Real.log 0.01)⟩,
   ⟨"almost_certain", "Almost certain (99.9%)", -(Real.log 0.001)⟩]

/-- Catalog lookup by id, as the callers do with `reliability=level.id`. -/
noncomputable def findLevel (id : String) : Option ReliabilityLevel :=
  get_reliability_levels.find? (fun l => l.id == id)

/-- Modelled from the spec (§3): a `Measurement` is a real value (its display is
derived on demand and modelled separately). -/
structure Measurement where
  value : ℝ

/-- Modelled from the spec (§3): a `Range` is a pair of measurements, the half-open
band of continuous values that quantize to one Sharenote label. -/
structure Range where
  low : Measurement
  high : Measurement

/-- Modelled from the spec (§4.5): `required_hashrate(note, t_secs, reliability_id)`
computes `H = k × 2^zbits / t_secs`; fails `InvalidReliabilityId` for an unknown id
and `NonPositiveWindow` for `t_secs ≤ 0`. -/
noncomputable def required_hashrate (n : Sharenote) (t_secs : ℝ) (id : String) :
    Except SharenoteError Measurement :=
  match findLevel id with
  | none => .error .invalidReliabilityId
  | some l =>
    if t_secs ≤ 0 then .error .nonPositiveWindow
    else .ok ⟨l.k * (2 : ℝ) ^ ((n.zbits : ℝ)) / t_secs⟩

/-- Modelled from the spec (§4.5): `required_hashrate_mean(note, t_secs)`,
the same relation with `k = 1`. -/
noncomputable def required_hashrate_mean (n : Sharenote) (t_secs : ℝ) :
    Except SharenoteError Measurement :=
  if t_secs ≤ 0 then .error .nonPositiveWindow
  else .ok ⟨(2 : ℝ) ^ ((n.zbits : ℝ)) / t_secs⟩

/-- Modelled from the spec (§4.5): downward quantization at cent granularity used by
`note_from_hashrate` ("quantized down via the §4.2 rule"): the integer and cent parts
are taken by flooring rather than rounding, so the produced label never overstates
the continuous value. -/
noncomputable def quantize_down (x : ℝ) : Sharenote :=
  let z0 : ℤ := ⌊x⌋
  ⟨z0, ⌊(x - (z0 : ℝ)) * 100⌋⟩

/-- Modelled from the spec (§4.5): `note_from_hashrate(hps, t_secs, reliability_id)`:
`zbits_max = log2(hps × t_secs / k)`, quantized down; fails `HashrateTooLow` if
`zbits_max < MIN_ZEROS` (a non-positive budget has no logarithm and is likewise too
low); fails `OutOfRange` if the quantized note exceeds `MAX_ZEROS`. -/
noncomputable def note_from_hashrate (hps t_secs : ℝ) (id : String) :
    Except SharenoteError Sharenote :=
  match findLevel id with
  | none => .error .invalidReliabilityId
  | some l =>
    if t_secs ≤ 0 then .error .nonPositiveWindow
    else if hps ≤ 0 then .error .hashrateTooLow
    else
      let zmax := Real.logb 2 (hps * t_secs / l.k)
      if zmax < (MIN_ZEROS : ℝ) then .error .hashrateTooLow
      else
        let n := quantize_down zmax
        if n.z ≤ MAX_ZEROS then .ok n else .error .outOfRange

/-- Modelled from the spec (§4.5): the reliability argument of
`hashrate_range_for_note` is either a catalog id or a raw numeric multiplier. -/
noncomputable def resolve_multiplier : String ⊕ ℝ → Except SharenoteError ℝ
  | .inl id =>
    match findLevel id with
    | none => .error .invalidReliabilityId
    | some l => .ok l.k
  | .inr k => .ok k

/-- Modelled from the spec (§4.5): `hashrate_range_for_note` — the half-open band of
hashrates for one label: low bound reproduces the note's exact `zbits`, high bound is
the hashrate that would just reach the next cent step (`zbits + 0.01`). -/
noncomputable def hashrate_range_for_note (n : Sharenote) (t_secs : ℝ)
    (rel : String ⊕ ℝ) : Except SharenoteError Range :=
  match resolve_multiplier rel with
  | .error e => .error e
  | .ok k =>
    if t_secs ≤ 0 then .error .nonPositiveWindow
    else
      .ok ⟨⟨k * (2 : ℝ) ^ ((n.zbits : ℝ)) / t_secs⟩,
           ⟨k * (2 : ℝ) ^ ((n.zbits : ℝ) + 1 / 100) / t_secs⟩⟩

/-- Modelled from the spec (§4.3): total linear difficulty `D_total = Σ 2^zbits_i`. -/
noncomputable def total_difficulty (notes : List Sharenote) : ℝ :=
  (notes.map expected_hashes_for_note).sum

/-- Modelled from the spec (§4.3): `combine_notes_serial(notes)`:
`D_total = Σ 2^zbits_i`, result `zbits = log2(D_total)` materialized through the
§4.2 quantization; fails on an empty input sequence (the spec leaves that failure's
kind open; `OutOfRange` stands for it), fails `OutOfRange` past the bound. -/
noncomputable def combine_notes_serial (notes : List Sharenote) :
    Except SharenoteError Sharenote :=
  if notes = [] then .error .outOfRange
  else note_from_zbits (Real.logb 2 (total_difficulty notes))

/-- Modelled from the spec (§4.3): `divide_notes(a, b)` returns the raw zbits value
`zbits_a − zbits_b` (not a Sharenote); no range enforcement of its own. -/
noncomputable def divide_notes (a b : Sharenote) : ℝ :=
  ((a.zbits : ℝ)) - ((b.zbits : ℝ))

/-- The character for a single decimal digit `d < 10`. -/
def digitChar (d : ℕ) : Char := Char.ofNat (48 + d)

/-- Decimal digit string of a natural number, most significant digit first
(the output of Python's decimal formatting of a non-negative int). -/
def natDecChars (m : ℕ) : List Char := ((Nat.digits 10 m).map digitChar).reverse

/-- Modelled from the spec (§3): canonical label characters, the format string
`"\x7bz\x7dZ\x7bcents:02d\x7d"` — decimal `z`, a literal `Z`, then exactly two
cent digits. -/
def Sharenote.labelChars (n : Sharenote) : List Char :=
  natDecChars n.z.toNat ++
    'Z' :: [digitChar (n.cents.toNat / 10), digitChar (n.cents.toNat % 10)]

/-- Modelled from the spec (§3): the canonical label as a string. -/
def Sharenote.label (n : Sharenote) : String := String.mk n.labelChars

/-- ASCII decimal digit test used by the label pattern. -/
def isDigitChar (c : Char) : Bool := 48 ≤ c.toNat && c.toNat ≤ 57

/-- Case-insensitive `Z` separator test of the label pattern. -/
def isZChar (c : Char) : Bool := c = 'Z' || c = 'z'

/-- Splits a character list at the first (case-insensitive) `Z`; `none` when there
is no `Z` at all. -/
def splitAtZ : List Char → Option (List Char × List Char)
  | [] => none
  | c :: rest =>
    if isZChar c then some ([], rest)
    else
      match splitAtZ rest with
      | some (l, r) => some (c :: l, r)
      | none => none

/-- Value of a most-significant-first digit-character list. -/
def parseDigits (cs : List Char) : ℕ :=
  Nat.ofDigits 10 ((cs.map (fun c => c.toNat - 48)).reverse)

/-- Whitespace trimming of `str.strip()` on the character list. -/
def trimChars (cs : List Char) : List Char :=
  ((cs.dropWhile Char.isWhitespace).reverse.dropWhile Char.isWhitespace).reverse

/-- Modelled from the spec (§4.1): `ensure_note(text)` trims whitespace, requires the
pattern `<digits>Z<exactly two digits>` (case-insensitive `Z`), fails `InvalidLabel`
on malformed text and `OutOfRange` when the §3 invariants are violated. -/
def ensure_note (s : String) : Except SharenoteError Sharenote :=
  let cs := trimChars s.toList
  match splitAtZ cs with
  | none => .error .invalidLabel
  | some (l, r) =>
    if l = [] then .error .invalidLabel
    else if ¬ (l.all isDigitChar) then .error .invalidLabel
    else if r.length ≠ 2 then .error .invalidLabel
    else if ¬ (r.all isDigitChar) then .error .invalidLabel
    else
      let n : Sharenote := ⟨(parseDigits l : ℤ), (parseDigits r : ℤ)⟩
      if n.Valid then .ok n else .error .outOfRange

/-- Modelled from the spec (§4.1): `note_from_components(z, cents)` — the §3 range
validation without string parsing. -/
def note_from_components (z cents : ℤ) : Except SharenoteError Sharenote :=
  let n : Sharenote := ⟨z, cents⟩
  if n.Valid then .ok n else .error .outOfRange

/-- The decimal unit ladder `UNIT_FACTORS` (`app.py` lines 52–62 and
`⛏️ Planner.py` lines 34–44), factors exact as rationals. -/
def UNIT_FACTORS : List (String × ℚ) :=
  [("H/s", 1), ("kH/s", 10 ^ 3), ("MH/s", 10 ^ 6), ("GH/s", 10 ^ 9),
   ("TH/s", 10 ^ 12), ("PH/s", 10 ^ 15), ("EH/s", 10 ^ 18),
   ("ZH/s", 10 ^ 21), ("YH/s", 10 ^ 24)]

/-- Modelled from the spec (§4.6): `human_hashrate` picks the largest ladder unit
whose scaled value is `≥ 1`, falling back to the smallest unit. -/
def pick_unit (value : ℚ) : String × ℚ :=
  ((UNIT_FACTORS.filter (fun u => u.2 ≤ value)).getLast?).getD ("H/s", 1)

/-- Fixed-significant-digit rendering of a scaled magnitude: three significant
decimal places, as an exactly rounded decimal string. -/
def formatScaled (q : ℚ) : String :=
  let m : ℤ := round (q * 1000)
  String.mk (natDecChars (m / 1000).toNat) ++ "." ++
    String.mk [digitChar ((m.toNat / 100) % 10), digitChar ((m.toNat / 10) % 10),
               digitChar (m.toNat % 10)]

/-- Modelled from the spec (§4.6): `human_hashrate(value)` — the unit-scaled display
string `"<scaled> <unit>"` with fixed significant digits, plus the chosen unit. -/
def human_hashrate (value : ℚ) : String × ℚ × String :=
  let u := pick_unit value
  (u.1, value / u.2, formatScaled (value / u.2) ++ " " ++ u.1)

/-- Embedded from `⛏️ Planner.py` lines 71–77: `_compute_best_note` returns
`(None, prompt)` for a non-positive hashrate without calling the library, and
otherwise forwards to `note_from_hashrate`, converting any `SharenoteError` into
`(None, str(exc))`.  The library call is a parameter `f`, so the guard's
short-circuit is visible for every possible library behaviour. -/
noncomputable def compute_best_note
    (f : ℝ → ℤ → String → Except SharenoteError Sharenote)
    (hps : ℝ) (seconds : ℤ) (levelId : String) :
    Option Sharenote × Option String :=
  if hps ≤ 0 then
    (none, some "Enter a hashrate greater than 0 to see what you can print.")
  else
    match f hps seconds levelId with
    | .ok n => (some n, none)
    | .error e => (none, some e.message)

/-! ## Helper lemmas -/

theorem zbits_castR (n : Sharenote) :
    ((n.zbits : ℝ)) = (n.z : ℝ) + (n.cents : ℝ) / 100 := by
  rw [Sharenote.zbits]
  push_cast
  ring

theorem findLevel_mean : findLevel "mean" = some ⟨"mean", "On average", 1.0⟩ := rfl

theorem findLevel_usually :
    findLevel "usually" = some ⟨"usually", "Usually (90%)", -(Real.log 0.10)⟩ := rfl

theorem findLevel_often :
    findLevel "often" = some ⟨"often", "Often (95%)", -(Real.log 0.05)⟩ := rfl

theorem findLevel_very_likely :
    findLevel "very_likely" =
      some ⟨"very_likely", "Very likely (99%)", -(Real.log 0.01)⟩ := rfl

theorem findLevel_almost_certain :
    findLevel "almost_certain" =
      some ⟨"almost_certain", "Almost certain (99.9%)", -(Real.log 0.001)⟩ := rfl

theorem neg_log_tenth : -(Real.log 0.10) = Real.log 10 := by
  rw [show (0.10 : ℝ) = (10 : ℝ)⁻¹ by norm_num, Real.log_inv, neg_neg]

theorem neg_log_twentieth : -(Real.log 0.05) = Real.log 20 := by
  rw [show (0.05 : ℝ) = (20 : ℝ)⁻¹ by norm_num, Real.log_inv, neg_neg]

theorem neg_log_hundredth : -(Real.log 0.01) = Real.log 100 := by
  rw [show (0.01 : ℝ) = (100 : ℝ)⁻¹ by norm_num, Real.log_inv, neg_neg]

theorem neg_log_thousandth : -(Real.log 0.001) = Real.log 1000 := by
  rw [show (0.001 : ℝ) = (1000 : ℝ)⁻¹ by norm_num, Real.log_inv, neg_neg]

theorem one_lt_log_ten : 1 < Real.log 10 := by
  rw [← Real.exp_lt_exp, Real.exp_log (by norm_num : (0 : ℝ) < 10)]
  calc Real.exp 1 < 2.7182818286 := Real.exp_one_lt_d9
    _ < 10 := by norm_num

/-- Every multiplier in the catalog is positive. -/
theorem catalog_k_pos : ∀ l ∈ get_reliability_levels, 0 < l.k := by
  intro l hl
  fin_cases hl
  · norm_num
  · rw [neg_log_tenth]; exact Real.log_pos (by norm_num)
  · rw [neg_log_twentieth]; exact Real.log_pos (by norm_num)
  · rw [neg_log_hundredth]; exact Real.log_pos (by norm_num)
  · rw [neg_log_thousandth]; exact Real.log_pos (by norm_num)

theorem findLevel_k_pos {id : String} {l : ReliabilityLevel}
    (h : findLevel id = some l) : 0 < l.k :=
  catalog_k_pos l (List.mem_of_find?_eq_some h)

/-- The quantized note's zbits value, in closed form. -/
theorem quantize_nearest_zbits (x : ℝ) :
    ((quantize_nearest x).zbits : ℚ) =
      ((⌊x⌋ : ℤ) : ℚ) + ((round ((x - ((⌊x⌋ : ℤ) : ℝ)) * 100) : ℤ) : ℚ) / 100 := by
  unfold quantize_nearest
  by_cases h : round ((x - ((⌊x⌋ : ℤ) : ℝ)) * 100) = 100
  · rw [if_pos h, h, Sharenote.zbits]
    push_cast
    ring
  · rw [if_neg h, Sharenote.zbits]

/-- §4.2 quantization moves the continuous value by at most half a cent. -/
theorem quantize_nearest_close (x : ℝ) :
    |(((quantize_nearest x).zbits : ℝ)) - x| ≤ 1 / 200 := by
  have hq := quantize_nearest_zbits x
  set z0 : ℤ := ⌊x⌋ with hz0
  set c0 : ℤ := round ((x - (z0 : ℝ)) * 100) with hc0
  have hcast : (((quantize_nearest x).zbits : ℝ)) = (z0 : ℝ) + (c0 : ℝ) / 100 := by
    have := congrArg (fun q : ℚ => (q : ℝ)) hq
    push_cast at this
    exact this
  have hr : |(c0 : ℝ) - (x - (z0 : ℝ)) * 100| ≤ 1 / 2 := by
    have h := abs_sub_round ((x - (z0 : ℝ)) * 100)
    rw [abs_sub_comm] at h
    exact h
  have key : (z0 : ℝ) + (c0 : ℝ) / 100 - x =
      ((c0 : ℝ) - (x - (z0 : ℝ)) * 100) / 100 := by ring
  rw [hcast, key, abs_div, abs_of_pos (by norm_num : (0 : ℝ) < (100 : ℝ))]
  linarith

theorem rpow_nat_div_le {p q : ℕ} (hq : 0 < q) {c : ℝ} (hc : 0 ≤ c)
    (h : (2 : ℝ) ^ p ≤ c ^ q) : (2 : ℝ) ^ ((p : ℝ) / (q : ℝ)) ≤ c := by
  have hq0 : ((q : ℝ)) ≠ 0 := Nat.cast_ne_zero.mpr hq.ne'
  have hpow : ((2 : ℝ) ^ ((p : ℝ) / (q : ℝ))) ^ q = (2 : ℝ) ^ p := by
    rw [← Real.rpow_natCast ((2 : ℝ) ^ ((p : ℝ) / (q : ℝ))) q,
      ← Real.rpow_mul (by norm_num : (0 : ℝ) ≤ 2), div_mul_cancel₀ _ hq0,
      Real.rpow_natCast]
  refine le_of_pow_le_pow_left₀ hq.ne' hc ?_
  rw [hpow]
  exact h

theorem le_rpow_nat_div {p q : ℕ} (hq : 0 < q) {c : ℝ}
    (h : c ^ q ≤ (2 : ℝ) ^ p) : c ≤ (2 : ℝ) ^ ((p : ℝ) / (q : ℝ)) := by
  have hq0 : ((q : ℝ)) ≠ 0 := Nat.cast_ne_zero.mpr hq.ne'
  have hpow : ((2 : ℝ) ^ ((p : ℝ) / (q : ℝ))) ^ q = (2 : ℝ) ^ p := by
    rw [← Real.rpow_natCast ((2 : ℝ) ^ ((p : ℝ) / (q : ℝ))) q,
      ← Real.rpow_mul (by norm_num : (0 : ℝ) ≤ 2), div_mul_cancel₀ _ hq0,
      Real.rpow_natCast]
  refine le_of_pow_le_pow_left₀ hq.ne' (Real.rpow_nonneg (by norm_num) _) ?_
  rw [hpow]
  exact h

theorem lt_rpow_nat_div {p q : ℕ} {c : ℝ}
    (h : c ^ q < (2 : ℝ) ^ p) (hq : 0 < q) : c < (2 : ℝ) ^ ((p : ℝ) / (q : ℝ)) := by
  have hq0 : ((q : ℝ)) ≠ 0 := Nat.cast_ne_zero.mpr hq.ne'
  have hpow : ((2 : ℝ) ^ ((p : ℝ) / (q : ℝ))) ^ q = (2 : ℝ) ^ p := by
    rw [← Real.rpow_natCast ((2 : ℝ) ^ ((p : ℝ) / (q : ℝ))) q,
      ← Real.rpow_mul (by norm_num : (0 : ℝ) ≤ 2), div_mul_cancel₀ _ hq0,
      Real.rpow_natCast]
  refine lt_of_pow_lt_pow_left₀ q (Real.rpow_nonneg (by norm_num) _) ?_
  rw [hpow]
  exact h

/-- Rational lower bound on a base-2 logarithm from an integer power comparison. -/
theorem le_logb_two {x : ℝ} (hx : 0 < x) {p q : ℕ} (hq : 0 < q)
    (h : (2 : ℝ) ^ p ≤ x ^ q) : ((p : ℝ) / (q : ℝ)) ≤ Real.logb 2 x := by
  rw [Real.le_logb_iff_rpow_le (by norm_num : (1 : ℝ) < 2) hx]
  exact rpow_nat_div_le hq hx.le h

/-- Rational upper bound on a base-2 logarithm from an integer power comparison. -/
theorem logb_two_lt {x : ℝ} (hx : 0 < x) {p q : ℕ} (hq : 0 < q)
    (h : x ^ q < (2 : ℝ) ^ p) : Real.logb 2 x < ((p : ℝ) / (q : ℝ)) := by
  rw [Real.logb_lt_iff_lt_rpow (by norm_num : (1 : ℝ) < 2) hx]
  exact lt_rpow_nat_div h hq

/-- Downward quantization never overstates the continuous value. -/
theorem quantize_down_zbits_le (x : ℝ) : (((quantize_down x).zbits : ℝ)) ≤ x := by
  rw [zbits_castR]
  have hz : (quantize_down x).z = ⌊x⌋ := rfl
  have hc : (quantize_down x).cents = ⌊(x - ((⌊x⌋ : ℤ) : ℝ)) * 100⌋ := rfl
  rw [hz, hc]
  have h1 : ((⌊(x - ((⌊x⌋ : ℤ) : ℝ)) * 100⌋ : ℤ) : ℝ) ≤ (x - ((⌊x⌋ : ℤ) : ℝ)) * 100 :=
    Int.floor_le _
  linarith

/-- The §4.2 quantization rule written out (the two branches of the carry). -/
theorem quantize_nearest_def (x : ℝ) :
    quantize_nearest x =
      if round ((x - ((⌊x⌋ : ℤ) : ℝ)) * 100) = 100 then ⟨⌊x⌋ + 1, 0⟩
      else ⟨⌊x⌋, round ((x - ((⌊x⌋ : ℤ) : ℝ)) * 100)⟩ := rfl

/-- `⌊log2 6⌋ = 2`. -/
theorem floor_logb_two_six : ⌊Real.logb 2 (6 : ℝ)⌋ = 2 := by
  have hlo : ((2 : ℕ) : ℝ) / ((1 : ℕ) : ℝ) ≤ Real.logb 2 (6 : ℝ) :=
    le_logb_two (by norm_num) (by norm_num)
      (by norm_num : (2 : ℝ) ^ (2 : ℕ) ≤ (6 : ℝ) ^ (1 : ℕ))
  have hhi : Real.logb 2 (6 : ℝ) < ((3 : ℕ) : ℝ) / ((1 : ℕ) : ℝ) :=
    logb_two_lt (by norm_num) (by norm_num)
      (by norm_num : (6 : ℝ) ^ (1 : ℕ) < (2 : ℝ) ^ (3 : ℕ))
  have hlo' : (2 : ℝ) ≤ Real.logb 2 (6 : ℝ) := by
    rw [show ((2 : ℕ) : ℝ) / ((1 : ℕ) : ℝ) = 2 by norm_num] at hlo
    exact hlo
  have hhi' : Real.logb 2 (6 : ℝ) < 3 := by
    rw [show ((3 : ℕ) : ℝ) / ((1 : ℕ) : ℝ) = 3 by norm_num] at hhi
    exact hhi
  rw [Int.floor_eq_iff]
  constructor
  · push_cast
    exact hlo'
  · push_cast
    linarith

/-- `log2 6` lies in the cent band `[2.575, 2.585)`, so its cents round to 58. -/
theorem round_cents_logb_six :
    round ((Real.logb 2 (6 : ℝ) - ((2 : ℤ) : ℝ)) * 100) = 58 := by
  have hlo : ((103 : ℕ) : ℝ) / ((40 : ℕ) : ℝ) ≤ Real.logb 2 (6 : ℝ) :=
    le_logb_two (by norm_num) (by norm_num)
      (by norm_num : (2 : ℝ) ^ (103 : ℕ) ≤ (6 : ℝ) ^ (40 : ℕ))
  have hhi : Real.logb 2 (6 : ℝ) < ((517 : ℕ) : ℝ) / ((200 : ℕ) : ℝ) :=
    logb_two_lt (by norm_num) (by norm_num)
      (by norm_num : (6 : ℝ) ^ (200 : ℕ) < (2 : ℝ) ^ (517 : ℕ))
  have hlo' : (103 : ℝ) / 40 ≤ Real.logb 2 (6 : ℝ) := by
    rw [show ((103 : ℕ) : ℝ) / ((40 : ℕ) : ℝ) = (103 : ℝ) / 40 by norm_num] at hlo
    exact hlo
  have hhi' : Real.logb 2 (6 : ℝ) < (517 : ℝ) / 200 := by
    rw [show ((517 : ℕ) : ℝ) / ((200 : ℕ) : ℝ) = (517 : ℝ) / 200 by norm_num] at hhi
    exact hhi
  rw [round_eq, Int.floor_eq_iff]
  constructor
  · push_cast
    linarith
  · push_cast
    linarith

/-- The total difficulty of the pair `2Z00, 1Z00` is `2^2 + 2^1 = 6`. -/
theorem total_difficulty_pair :
    total_difficulty [⟨2, 0⟩, ⟨1, 0⟩] = 6 := by
  have hz2 : (((Sharenote.zbits ⟨2, 0⟩ : ℚ)) : ℝ) = ((2 : ℕ) : ℝ) := by
    rw [Sharenote.zbits]
    push_cast
    norm_num
  have hz1 : (((Sharenote.zbits ⟨1, 0⟩ : ℚ)) : ℝ) = ((1 : ℕ) : ℝ) := by
    rw [Sharenote.zbits]
    push_cast
    norm_num
  simp only [total_difficulty, List.map_cons, List.map_nil, expected_hashes_for_note,
    List.sum_cons, List.sum_nil, hz2, hz1, Real.rpow_natCast]
  norm_num

/-- Combining `2Z00` and `1Z00` in the model yields the quantized label `2Z58`. -/
theorem combine_pair_eval :
    combine_notes_serial [⟨2, 0⟩, ⟨1, 0⟩] = .ok ⟨2, 58⟩ := by
  have hne : ([(⟨2, 0⟩ : Sharenote), ⟨1, 0⟩] : List Sharenote) ≠ [] := by simp
  have hq : quantize_nearest (Real.logb 2 (6 : ℝ)) = ⟨2, 58⟩ := by
    rw [quantize_nearest_def, floor_logb_two_six, round_cents_logb_six,
      if_neg (by decide : ¬ (58 : ℤ) = 100)]
  have hx : ¬ Real.logb 2 (6 : ℝ) < 0 := by
    rw [not_lt]
    have := floor_logb_two_six
    have h2 : ((2 : ℤ) : ℝ) ≤ Real.logb 2 (6 : ℝ) := by
      rw [← this]
      exact Int.floor_le _
    push_cast at h2
    linarith
  simp only [combine_notes_serial, if_neg hne, total_difficulty_pair, note_from_zbits]
  rw [if_neg hx, hq, if_pos (by decide : (⟨2, 58⟩ : Sharenote).Valid)]

/-! ## Claim theorems -/

/-- C8: for every pair of Sharenotes, `divide_notes(a, b)` returns the raw real
number `zbits_a − zbits_b` — the log2-domain ratio of the linear difficulties
`D_a / D_b` — as a plain real, not a `Sharenote`, with no range enforcement of its
own (it is total on all pairs; re-quantization is the caller's job via
`note_from_zbits`). -/
theorem divide_notes_raw_log_ratio (a b : Sharenote) :
    divide_notes a b = ((a.zbits : ℝ)) - ((b.zbits : ℝ)) ∧
    divide_notes a b =
      Real.logb 2 (expected_hashes_for_note a / expected_hashes_for_note b) := by
  refine ⟨rfl, ?_⟩
  rw [expected_hashes_for_note, expected_hashes_for_note,
    ← Real.rpow_sub (by norm_num : (0 : ℝ) < 2),
    Real.logb_rpow (by norm_num : (0 : ℝ) < 2) (by norm_num : (2 : ℝ) ≠ 1)]
  rfl

/-- C2: for every finite `zbits ≥ 0`, `note_from_zbits` quantizes by
`z = ⌊zbits⌋`, `cents = round((zbits − ⌊zbits⌋) × 100)` with a carry at 100
(incrementing `z`, resetting `cents`), and fails `OutOfRange` exactly when the
resulting `(z, cents)` falls outside `[MIN_ZEROS, MAX_ZEROS] × [0, MAX_CENTZ]`. -/
theorem note_from_zbits_spec (x : ℝ) (hx : 0 ≤ x) :
    (quantize_nearest x =
      if round ((x - ((⌊x⌋ : ℤ) : ℝ)) * 100) = 100 then ⟨⌊x⌋ + 1, 0⟩
      else ⟨⌊x⌋, round ((x - ((⌊x⌋ : ℤ) : ℝ)) * 100)⟩) ∧
    (∀ n, note_from_zbits x = .ok n ↔
      (n = quantize_nearest x ∧
        MIN_ZEROS ≤ (quantize_nearest x).z ∧ (quantize_nearest x).z ≤ MAX_ZEROS ∧
        0 ≤ (quantize_nearest x).cents ∧ (quantize_nearest x).cents ≤ MAX_CENTZ)) ∧
    (note_from_zbits x = .error .outOfRange ↔
      ¬ (MIN_ZEROS ≤ (quantize_nearest x).z ∧ (quantize_nearest x).z ≤ MAX_ZEROS ∧
        0 ≤ (quantize_nearest x).cents ∧ (quantize_nearest x).cents ≤ MAX_CENTZ)) := by
  have hguard : ¬ x < 0 := not_lt.mpr hx
  have hvdef : (quantize_nearest x).Valid ↔
      (MIN_ZEROS ≤ (quantize_nearest x).z ∧ (quantize_nearest x).z ≤ MAX_ZEROS ∧
        0 ≤ (quantize_nearest x).cents ∧ (quantize_nearest x).cents ≤ MAX_CENTZ) := by
    simp only [Sharenote.Valid, MIN_CENTZ]
  refine ⟨rfl, ?_, ?_⟩
  · intro n
    by_cases hv : (quantize_nearest x).Valid
    · have heq : note_from_zbits x = .ok (quantize_nearest x) := by
        simp only [note_from_zbits]
        rw [if_neg hguard, if_pos hv]
      rw [heq]
      simp only [Except.ok.injEq]
      exact ⟨fun h => ⟨h.symm, hvdef.mp hv⟩, fun h => h.1.symm⟩
    · have heq : note_from_zbits x = .error .outOfRange := by
        simp only [note_from_zbits]
        rw [if_neg hguard, if_neg hv]
      rw [heq]
      constructor
      · intro h
        cases h
      · rintro ⟨-, h⟩
        exact absurd (hvdef.mpr h) hv
  · by_cases hv : (quantize_nearest x).Valid
    · have heq : note_from_zbits x = .ok (quantize_nearest x) := by
        simp only [note_from_zbits]
        rw [if_neg hguard, if_pos hv]
      rw [heq]
      constructor
      · intro h
        cases h
      · intro h
        exact absurd (hvdef.mp hv) h
    · have heq : note_from_zbits x = .error .outOfRange := by
        simp only [note_from_zbits]
        rw [if_neg hguard, if_neg hv]
      rw [heq]
      exact ⟨fun _ h => hv (hvdef.mpr h), fun _ => rfl⟩

/-- Witness for C2 at `zbits = 33.54`: the note `33Z54` comes back. -/
theorem note_from_zbits_spec_witness :
    (0 : ℝ) ≤ 33.54 ∧ note_from_zbits 33.54 = .ok ⟨33, 54⟩ := by
  have hx : (0 : ℝ) ≤ 33.54 := by norm_num
  have hfl : ⌊(33.54 : ℝ)⌋ = 33 := by
    rw [Int.floor_eq_iff]
    constructor <;> norm_num
  have hround : round (((33.54 : ℝ) - ((33 : ℤ) : ℝ)) * 100) = (54 : ℤ) := by
    have h : ((33.54 : ℝ) - ((33 : ℤ) : ℝ)) * 100 = ((54 : ℤ) : ℝ) := by
      push_cast
      norm_num
    rw [h, round_intCast]
  have hq : quantize_nearest 33.54 = ⟨33, 54⟩ := by
    have h1 := (note_from_zbits_spec 33.54 hx).1
    rw [hfl] at h1
    rw [hround] at h1
    rw [if_neg (by decide : ¬ (54 : ℤ) = 100)] at h1
    exact h1
  refine ⟨hx, ((note_from_zbits_spec 33.54 hx).2.1 ⟨33, 54⟩).mpr ?_⟩
  rw [hq]
  exact ⟨rfl, by decide, by decide, by decide, by decide⟩

/-- For positive inputs and a known level, `note_from_hashrate` unfolds to the
guard-plus-quantize expression on `zbits_max`. -/
theorem note_from_hashrate_eval (hps t : ℝ) (id : String) (l : ReliabilityLevel)
    (hh : 0 < hps) (ht : 0 < t) (hl : findLevel id = some l) :
    note_from_hashrate hps t id =
      (if Real.logb 2 (hps * t / l.k) < (MIN_ZEROS : ℝ) then .error .hashrateTooLow
       else if (quantize_down (Real.logb 2 (hps * t / l.k))).z ≤ MAX_ZEROS
         then .ok (quantize_down (Real.logb 2 (hps * t / l.k)))
         else .error .outOfRange) := by
  simp only [note_from_hashrate, hl]
  rw [if_neg (not_le.mpr ht), if_neg (not_le.mpr hh)]

/-- A note returned by `note_from_hashrate` is the downward quantization of
`zbits_max` and clears `MIN_ZEROS`. -/
theorem note_from_hashrate_ok (hps t : ℝ) (id : String) (l : ReliabilityLevel)
    (hh : 0 < hps) (ht : 0 < t) (hl : findLevel id = some l)
    (n : Sharenote) (hok : note_from_hashrate hps t id = .ok n) :
    n = quantize_down (Real.logb 2 (hps * t / l.k)) ∧ MIN_ZEROS ≤ n.z := by
  rw [note_from_hashrate_eval hps t id l hh ht hl] at hok
  by_cases hlt : Real.logb 2 (hps * t / l.k) < (MIN_ZEROS : ℝ)
  · rw [if_pos hlt] at hok
    cases hok
  · rw [if_neg hlt] at hok
    by_cases hle : (quantize_down (Real.logb 2 (hps * t / l.k))).z ≤ MAX_ZEROS
    · rw [if_pos hle] at hok
      cases hok
      refine ⟨rfl, ?_⟩
      have h1 : (MIN_ZEROS : ℝ) ≤ Real.logb 2 (hps * t / l.k) := not_lt.mp hlt
      show MIN_ZEROS ≤ ⌊Real.logb 2 (hps * t / l.k)⌋
      rw [Int.le_floor]
      exact h1
    · rw [if_neg hle] at hok
      cases hok

/-- C1: for `hps > 0`, `t_secs > 0` and a known reliability id with multiplier `k`,
`note_from_hashrate` computes `zbits_max = log2(hps × t_secs / k)`, quantizes it
downward at cent granularity, and fails `HashrateTooLow` whenever
`zbits_max < MIN_ZEROS`; any note it returns has `z ≥ MIN_ZEROS`. -/
theorem note_from_hashrate_spec (hps t : ℝ) (id : String) (l : ReliabilityLevel)
    (hh : 0 < hps) (ht : 0 < t) (hl : findLevel id = some l) :
    (Real.logb 2 (hps * t / l.k) < (MIN_ZEROS : ℝ) →
      note_from_hashrate hps t id = .error .hashrateTooLow) ∧
    (∀ n, note_from_hashrate hps t id = .ok n →
      n = quantize_down (Real.logb 2 (hps * t / l.k)) ∧ MIN_ZEROS ≤ n.z) := by
  constructor
  · intro hlt
    rw [note_from_hashrate_eval hps t id l hh ht hl, if_pos hlt]
  · exact note_from_hashrate_ok hps t id l hh ht hl

/-- Witness for C1: one hash per second for one second cannot print any note. -/
theorem note_from_hashrate_spec_witness :
    note_from_hashrate 1 1 "mean" = .error .hashrateTooLow := by
  apply (note_from_hashrate_spec 1 1 "mean" ⟨"mean", "On average", 1.0⟩
    (by norm_num) (by norm_num) findLevel_mean).1
  show Real.logb 2 ((1 : ℝ) * 1 / (1.0 : ℝ)) < (MIN_ZEROS : ℝ)
  rw [show (1 : ℝ) * 1 / (1.0 : ℝ) = 1 by norm_num, Real.logb_one]
  norm_num [MIN_ZEROS]

/-- C4: quantizing down and converting back never demands more hashrate than was
supplied: if `note_from_hashrate(hps, t, level)` returns a note, then
`required_hashrate(note, t, level).value ≤ hps`. -/
theorem note_from_hashrate_required_le (hps t : ℝ) (id : String)
    (l : ReliabilityLevel) (hh : 0 < hps) (ht : 0 < t) (hl : findLevel id = some l)
    (n : Sharenote) (hok : note_from_hashrate hps t id = .ok n) :
    ∃ m, required_hashrate n t id = .ok m ∧ m.value ≤ hps := by
  have hk : 0 < l.k := findLevel_k_pos hl
  have hnt : ¬ t ≤ 0 := not_le.mpr ht
  obtain ⟨hn, -⟩ := note_from_hashrate_ok hps t id l hh ht hl n hok
  refine ⟨⟨l.k * (2 : ℝ) ^ ((n.zbits : ℝ)) / t⟩, ?_, ?_⟩
  · simp only [required_hashrate, hl]
    rw [if_neg hnt]
  · have hB : 0 < hps * t / l.k := by positivity
    have hle : ((n.zbits : ℝ)) ≤ Real.logb 2 (hps * t / l.k) := by
      rw [hn]
      exact quantize_down_zbits_le _
    have h2 : (2 : ℝ) ^ ((n.zbits : ℝ)) ≤ (2 : ℝ) ^ Real.logb 2 (hps * t / l.k) :=
      (Real.rpow_le_rpow_left_iff (by norm_num : (1 : ℝ) < 2)).mpr hle
    rw [Real.rpow_logb (by norm_num) (by norm_num) hB] at h2
    have hstep : l.k * (2 : ℝ) ^ ((n.zbits : ℝ)) / t ≤ l.k * (hps * t / l.k) / t := by
      gcongr
    refine hstep.trans (le_of_eq ?_)
    field_simp

/-- `log2 4 = 2`, needed to evaluate the model at concrete inputs. -/
theorem logb_two_four : Real.logb 2 (4 : ℝ) = 2 := by
  rw [show (4 : ℝ) = (2 : ℝ) ^ ((2 : ℕ) : ℝ) by
    rw [Real.rpow_natCast]
    norm_num]
  rw [Real.logb_rpow (by norm_num) (by norm_num)]
  norm_num

/-- Downward quantization of the exact value 2 is the note `2Z00`. -/
theorem quantize_down_two : quantize_down (2 : ℝ) = ⟨2, 0⟩ := by
  have hfl : ⌊(2 : ℝ)⌋ = 2 := by
    rw [show (2 : ℝ) = ((2 : ℤ) : ℝ) by norm_num, Int.floor_intCast]
  have hz : (quantize_down (2 : ℝ)).z = 2 := hfl
  have hc : (quantize_down (2 : ℝ)).cents = 0 := by
    show ⌊((2 : ℝ) - ((⌊(2 : ℝ)⌋ : ℤ) : ℝ)) * 100⌋ = 0
    rw [hfl]
    rw [show ((2 : ℝ) - ((2 : ℤ) : ℝ)) * 100 = ((0 : ℤ) : ℝ) by push_cast; ring]
    exact Int.floor_intCast 0
  calc quantize_down (2 : ℝ)
      = ⟨(quantize_down (2 : ℝ)).z, (quantize_down (2 : ℝ)).cents⟩ := rfl
    _ = ⟨2, 0⟩ := by rw [hz, hc]

/-- The model returns `2Z00` for 4 H/s over 1 s at the mean level. -/
theorem note_from_hashrate_four : note_from_hashrate 4 1 "mean" = .ok ⟨2, 0⟩ := by
  have heq := note_from_hashrate_eval 4 1 "mean" ⟨"mean", "On average", 1.0⟩
    (by norm_num) (by norm_num) findLevel_mean
  rw [heq, show (4 : ℝ) * 1 / ((⟨"mean", "On average", 1.0⟩ : ReliabilityLevel)).k = 4
      from by norm_num, logb_two_four,
    quantize_down_two]
  rw [if_neg (by norm_num [MIN_ZEROS] : ¬ (2 : ℝ) < (MIN_ZEROS : ℝ))]
  rw [if_pos (by decide : ((⟨2, 0⟩ : Sharenote)).z ≤ MAX_ZEROS)]

/-- Witness for C4 at 4 H/s, a 1-second window and the mean level: the printed note
`2Z00` requires exactly 4 H/s, which is not more than the supplied 4 H/s. -/
theorem note_from_hashrate_required_le_witness :
    ∃ m, required_hashrate ⟨2, 0⟩ 1 "mean" = .ok m ∧ m.value ≤ 4 :=
  note_from_hashrate_required_le 4 1 "mean" ⟨"mean", "On average", 1.0⟩
    (by norm_num) (by norm_num) findLevel_mean ⟨2, 0⟩ note_from_hashrate_four

/-- A successful multiplier resolution on a reliability id names a catalog level. -/
theorem resolve_inl {id : String} {k : ℝ}
    (h : resolve_multiplier (.inl id) = .ok k) :
    ∃ l, findLevel id = some l ∧ l.k = k := by
  cases hfind : findLevel id with
  | none =>
    simp [resolve_multiplier, hfind] at h
  | some l =>
    simp only [resolve_multiplier, hfind, Except.ok.injEq] at h
    exact ⟨l, rfl, h⟩

/-- C7: for a valid note, window `t > 0` and a reliability id or numeric multiplier
resolving to `k > 0` (every catalog id does, as does the Planner's `multiplier=1.0`
call), `hashrate_range_for_note` returns the half-open band of hashrates that
quantize to this label: its low bound is `k·2^zbits/t` — for an id, exactly
`required_hashrate(note, t, level).value` — its high bound is the hashrate just
reaching the next cent step (`zbits + 0.01`), and every hashrate in `[low, high)`
quantizes down to exactly this note; for an id, `note_from_hashrate` prints it. -/
theorem hashrate_range_for_note_spec (n : Sharenote) (hn : n.Valid) (t : ℝ)
    (ht : 0 < t) (rel : String ⊕ ℝ) (k : ℝ)
    (hres : resolve_multiplier rel = .ok k) (hk : 0 < k) :
    ∃ r : Range, hashrate_range_for_note n t rel = .ok r ∧
      r.low.value = k * (2 : ℝ) ^ ((n.zbits : ℝ)) / t ∧
      r.high.value = k * (2 : ℝ) ^ ((n.zbits : ℝ) + 1 / 100) / t ∧
      (∀ id, rel = .inl id → required_hashrate n t id = .ok ⟨r.low.value⟩) ∧
      ∀ hps, r.low.value ≤ hps → hps < r.high.value →
        quantize_down (Real.logb 2 (hps * t / k)) = n ∧
        ∀ id, rel = .inl id → note_from_hashrate hps t id = .ok n := by
  have hnt : ¬ t ≤ 0 := not_le.mpr ht
  have hApos : (0 : ℝ) < (2 : ℝ) ^ ((n.zbits : ℝ)) :=
    Real.rpow_pos_of_pos (by norm_num) _
  have hBpos : (0 : ℝ) < (2 : ℝ) ^ ((n.zbits : ℝ) + 1 / 100) :=
    Real.rpow_pos_of_pos (by norm_num) _
  refine ⟨⟨⟨k * (2 : ℝ) ^ ((n.zbits : ℝ)) / t⟩,
    ⟨k * (2 : ℝ) ^ ((n.zbits : ℝ) + 1 / 100) / t⟩⟩, ?_, rfl, rfl, ?_, ?_⟩
  · simp only [hashrate_range_for_note, hres]
    rw [if_neg hnt]
  · intro id hrel
    subst hrel
    obtain ⟨l, hfind, hlk⟩ := resolve_inl hres
    simp only [required_hashrate, hfind]
    rw [if_neg hnt, hlk]
  · intro hps hlow hhigh
    simp only at hlow hhigh
    have hps_pos : 0 < hps := lt_of_lt_of_le (by positivity) hlow
    have hbud_lo : (2 : ℝ) ^ ((n.zbits : ℝ)) ≤ hps * t / k := by
      rw [le_div_iff₀ hk]
      have h1 := (div_le_iff₀ ht).mp hlow
      linarith
    have hbud_hi : hps * t / k < (2 : ℝ) ^ ((n.zbits : ℝ) + 1 / 100) := by
      rw [div_lt_iff₀ hk]
      have h2 := (lt_div_iff₀ ht).mp hhigh
      linarith
    have hbudpos : 0 < hps * t / k := by positivity
    have hL_lo : ((n.zbits : ℝ)) ≤ Real.logb 2 (hps * t / k) := by
      rw [Real.le_logb_iff_rpow_le (by norm_num : (1 : ℝ) < 2) hbudpos]
      exact hbud_lo
    have hL_hi : Real.logb 2 (hps * t / k) < (n.zbits : ℝ) + 1 / 100 := by
      rw [Real.logb_lt_iff_lt_rpow (by norm_num : (1 : ℝ) < 2) hbudpos]
      exact hbud_hi
    obtain ⟨hz1, hz2, hc1, hc2⟩ := hn
    have hz1' : (1 : ℤ) ≤ n.z := by simpa [MIN_ZEROS] using hz1
    have hz2' : n.z ≤ (256 : ℤ) := by simpa [MAX_ZEROS] using hz2
    have hc1' : (0 : ℤ) ≤ n.cents := by simpa [MIN_CENTZ] using hc1
    have hc2' : n.cents ≤ (99 : ℤ) := by simpa [MAX_CENTZ] using hc2
    have hzb : ((n.zbits : ℝ)) = (n.z : ℝ) + (n.cents : ℝ) / 100 := zbits_castR n
    have hcR1 : (0 : ℝ) ≤ (n.cents : ℝ) := by exact_mod_cast hc1'
    have hcR2 : ((n.cents : ℝ)) ≤ 99 := by exact_mod_cast hc2'
    set L := Real.logb 2 (hps * t / k) with hLdef
    have hfl : ⌊L⌋ = n.z := by
      rw [Int.floor_eq_iff]
      constructor
      · have : (n.z : ℝ) ≤ ((n.zbits : ℝ)) := by
          rw [hzb]
          linarith
        linarith
      · have : ((n.zbits : ℝ)) + 1 / 100 ≤ (n.z : ℝ) + 1 := by
          rw [hzb]
          linarith
        linarith
    have hcf : ⌊(L - ((⌊L⌋ : ℤ) : ℝ)) * 100⌋ = n.cents := by
      rw [hfl, Int.floor_eq_iff]
      constructor
      · rw [hzb] at hL_lo
        nlinarith [hL_lo]
      · rw [hzb] at hL_hi
        nlinarith [hL_hi]
    have hqd : quantize_down L = n := by
      calc quantize_down L = ⟨⌊L⌋, ⌊(L - ((⌊L⌋ : ℤ) : ℝ)) * 100⌋⟩ := rfl
        _ = ⟨n.z, n.cents⟩ := by rw [hcf, hfl]
        _ = n := rfl
    have hcond1 : ¬ L < (MIN_ZEROS : ℝ) := by
      rw [not_lt]
      have hzR : (1 : ℝ) ≤ (n.z : ℝ) := by exact_mod_cast hz1'
      have hmz : ((MIN_ZEROS : ℤ) : ℝ) = 1 := by norm_num [MIN_ZEROS]
      rw [hmz]
      have hzle : (n.z : ℝ) ≤ ((n.zbits : ℝ)) := by
        rw [hzb]
        linarith
      linarith
    refine ⟨hqd, ?_⟩
    intro id hrel
    subst hrel
    obtain ⟨l, hfind, hlk⟩ := resolve_inl hres
    rw [note_from_hashrate_eval hps t id l hps_pos ht hfind, hlk, ← hLdef, hqd,
      if_neg hcond1, if_pos hz2]

/-- Witness for C7 at the note `2Z00` and a 1-second window, exercising both
reliability arguments: the catalog id `mean` and the raw numeric multiplier `1.0`
that the Planner page passes. -/
theorem hashrate_range_for_note_spec_witness :
    (∃ r : Range, hashrate_range_for_note ⟨2, 0⟩ 1 (.inl "mean") = .ok r ∧
      r.low.value = (1.0 : ℝ) * (2 : ℝ) ^ (((Sharenote.zbits ⟨2, 0⟩ : ℚ) : ℝ)) / 1 ∧
      r.high.value =
        (1.0 : ℝ) * (2 : ℝ) ^ (((Sharenote.zbits ⟨2, 0⟩ : ℚ) : ℝ) + 1 / 100) / 1 ∧
      (∀ id, (Sum.inl "mean" : String ⊕ ℝ) = .inl id →
        required_hashrate ⟨2, 0⟩ 1 id = .ok ⟨r.low.value⟩) ∧
      ∀ hps, r.low.value ≤ hps → hps < r.high.value →
        quantize_down (Real.logb 2 (hps * 1 / 1.0)) = ⟨2, 0⟩ ∧
        ∀ id, (Sum.inl "mean" : String ⊕ ℝ) = .inl id →
          note_from_hashrate hps 1 id = .ok ⟨2, 0⟩) ∧
    (∃ r : Range, hashrate_range_for_note ⟨2, 0⟩ 1 (.inr 1.0) = .ok r ∧
      r.low.value = (1.0 : ℝ) * (2 : ℝ) ^ (((Sharenote.zbits ⟨2, 0⟩ : ℚ) : ℝ)) / 1 ∧
      r.high.value =
        (1.0 : ℝ) * (2 : ℝ) ^ (((Sharenote.zbits ⟨2, 0⟩ : ℚ) : ℝ) + 1 / 100) / 1 ∧
      (∀ id, (Sum.inr 1.0 : String ⊕ ℝ) = .inl id →
        required_hashrate ⟨2, 0⟩ 1 id = .ok ⟨r.low.value⟩) ∧
      ∀ hps, r.low.value ≤ hps → hps < r.high.value →
        quantize_down (Real.logb 2 (hps * 1 / 1.0)) = ⟨2, 0⟩ ∧
        ∀ id, (Sum.inr 1.0 : String ⊕ ℝ) = .inl id →
          note_from_hashrate hps 1 id = .ok ⟨2, 0⟩) :=
  ⟨hashrate_range_for_note_spec ⟨2, 0⟩ (by decide) 1 (by norm_num) (.inl "mean")
      1.0 rfl (by norm_num),
    hashrate_range_for_note_spec ⟨2, 0⟩ (by decide) 1 (by norm_num) (.inr 1.0)
      1.0 rfl (by norm_num)⟩

/-- C3 counterexample: combining the valid notes `2Z00` and `1Z00` yields `2Z58`,
whose linear difficulty `2^2.58` misses `2^2 + 2^1 = 6` by about `0.23%` — far more
than the claimed relative tolerance `1e-9`.  Cent quantization caps the achievable
tolerance at about `2^(1/200) − 1 ≈ 0.35%`, so the claim as stated is false. -/
theorem combine_notes_tolerance_counterexample :
    Sharenote.Valid ⟨2, 0⟩ ∧ Sharenote.Valid ⟨1, 0⟩ ∧
    combine_notes_serial [⟨2, 0⟩, ⟨1, 0⟩] = .ok ⟨2, 58⟩ ∧
    |(2 : ℝ) ^ (((Sharenote.zbits ⟨2, 58⟩ : ℚ)) : ℝ) -
        total_difficulty [⟨2, 0⟩, ⟨1, 0⟩]| >
      1e-9 * total_difficulty [⟨2, 0⟩, ⟨1, 0⟩] := by
  refine ⟨by decide, by decide, combine_pair_eval, ?_⟩
  have hz : (((Sharenote.zbits ⟨2, 58⟩ : ℚ)) : ℝ) =
      ((129 : ℕ) : ℝ) / ((50 : ℕ) : ℝ) := by
    rw [Sharenote.zbits]
    push_cast
    norm_num
  have hup : (2 : ℝ) ^ (((129 : ℕ) : ℝ) / ((50 : ℕ) : ℝ)) ≤ 5.986 := by
    refine rpow_nat_div_le (by norm_num) (by norm_num) ?_
    rw [show (5.986 : ℝ) = 5986 / 1000 by norm_num, div_pow]
    rw [le_div_iff₀ (by positivity)]
    norm_num
  have hpos : (0 : ℝ) < (2 : ℝ) ^ (((129 : ℕ) : ℝ) / ((50 : ℕ) : ℝ)) :=
    Real.rpow_pos_of_pos (by norm_num) _
  rw [total_difficulty_pair, hz]
  rw [abs_of_nonpos (by linarith)]
  linarith

/-- C3 (amended): `combine_notes_serial` fails on an empty sequence; for a non-empty
sequence of valid notes any returned note's zbits is within half a cent (`1/200`) of
`log2(Σ 2^zbits_i)` — the tolerance cent quantization actually guarantees, replacing
the claimed `1e-9` — and the call fails `OutOfRange` once `log2(Σ 2^zbits_i)` reaches
the representable bound `256 + 199/200`. -/
theorem combine_notes_serial_amended :
    (∃ e, combine_notes_serial [] = .error e) ∧
    (∀ notes : List Sharenote, notes ≠ [] → (∀ n ∈ notes, n.Valid) →
      (∀ m, combine_notes_serial notes = .ok m →
        |((m.zbits : ℝ)) - Real.logb 2 (total_difficulty notes)| ≤ 1 / 200) ∧
      ((256 + 199 / 200 : ℝ) ≤ Real.logb 2 (total_difficulty notes) →
        combine_notes_serial notes = .error .outOfRange)) := by
  constructor
  · exact ⟨.outOfRange, by simp [combine_notes_serial]⟩
  · intro notes hne hval
    have hD2 : (2 : ℝ) ≤ total_difficulty notes := by
      obtain ⟨a, tl, rfl⟩ := List.exists_cons_of_ne_nil hne
      simp only [total_difficulty, List.map_cons, List.sum_cons]
      have hv := hval a (List.mem_cons_self a tl)
      obtain ⟨h1, -, h3, -⟩ := hv
      have hz1 : (1 : ℝ) ≤ (a.z : ℝ) := by
        have : (1 : ℤ) ≤ a.z := by simpa [MIN_ZEROS] using h1
        exact_mod_cast this
      have hc0 : (0 : ℝ) ≤ (a.cents : ℝ) := by
        have : (0 : ℤ) ≤ a.cents := by simpa [MIN_CENTZ] using h3
        exact_mod_cast this
      have hzge : (1 : ℝ) ≤ ((a.zbits : ℝ)) := by
        rw [zbits_castR]
        linarith
      have hh : (2 : ℝ) ≤ expected_hashes_for_note a := by
        calc (2 : ℝ) = (2 : ℝ) ^ ((1 : ℝ)) := (Real.rpow_one 2).symm
          _ ≤ (2 : ℝ) ^ ((a.zbits : ℝ)) :=
            (Real.rpow_le_rpow_left_iff (by norm_num : (1 : ℝ) < 2)).mpr hzge
          _ = expected_hashes_for_note a := rfl
      have htl : 0 ≤ (tl.map expected_hashes_for_note).sum := by
        apply List.sum_nonneg
        intro x hx
        simp only [List.mem_map] at hx
        obtain ⟨y, -, rfl⟩ := hx
        exact (Real.rpow_pos_of_pos (by norm_num) _).le
      linarith
    have hDpos : 0 < total_difficulty notes := by linarith
    have hLpos : 0 ≤ Real.logb 2 (total_difficulty notes) := by
      rw [Real.le_logb_iff_rpow_le (by norm_num : (1 : ℝ) < 2) hDpos,
        Real.rpow_zero]
      linarith
    have hx : ¬ Real.logb 2 (total_difficulty notes) < 0 := not_lt.mpr hLpos
    have heval : combine_notes_serial notes =
        note_from_zbits (Real.logb 2 (total_difficulty notes)) := by
      simp only [combine_notes_serial, if_neg hne]
    constructor
    · intro m hok
      rw [heval] at hok
      simp only [note_from_zbits] at hok
      rw [if_neg hx] at hok
      by_cases hv : (quantize_nearest (Real.logb 2 (total_difficulty notes))).Valid
      · rw [if_pos hv] at hok
        cases hok
        exact quantize_nearest_close _
      · rw [if_neg hv] at hok
        cases hok
    · intro hbig
      rw [heval]
      simp only [note_from_zbits]
      rw [if_neg hx]
      set L := Real.logb 2 (total_difficulty notes) with hLdef
      have hfl : (256 : ℤ) ≤ ⌊L⌋ := by
        rw [Int.le_floor]
        push_cast
        linarith
      have hnv : ¬ (quantize_nearest L).Valid := by
        rw [quantize_nearest_def]
        by_cases hc : round ((L - ((⌊L⌋ : ℤ) : ℝ)) * 100) = 100
        · rw [if_pos hc]
          rintro ⟨-, hz2, -, -⟩
          simp only [MAX_ZEROS] at hz2
          omega
        · rw [if_neg hc]
          rintro ⟨-, hz2, -, hc2⟩
          simp only [MAX_ZEROS] at hz2
          have h256 : ⌊L⌋ = 256 := le_antisymm hz2 hfl
          have hy : (99.5 : ℝ) ≤ (L - ((⌊L⌋ : ℤ) : ℝ)) * 100 := by
            rw [h256]
            push_cast
            linarith
          have hround_ge : (100 : ℤ) ≤ round ((L - ((⌊L⌋ : ℤ) : ℝ)) * 100) := by
            rw [round_eq, Int.le_floor]
            push_cast
            linarith
          have hc99 : round ((L - ((⌊L⌋ : ℤ) : ℝ)) * 100) ≤ 99 := by
            simpa [MAX_CENTZ] using hc2
          omega
      rw [if_neg hnv]

/-- Witness for the amended C3 at the singleton list `[2Z00]`: the combined note is
`2Z00` itself and its zbits is within half a cent of `log2 4`. -/
theorem combine_notes_serial_amended_witness :
    |(((Sharenote.zbits ⟨2, 0⟩ : ℚ)) : ℝ) -
        Real.logb 2 (total_difficulty [⟨2, 0⟩])| ≤ 1 / 200 := by
  have hD : total_difficulty [⟨2, 0⟩] = 4 := by
    have hz2 : (((Sharenote.zbits ⟨2, 0⟩ : ℚ)) : ℝ) = ((2 : ℕ) : ℝ) := by
      rw [Sharenote.zbits]
      push_cast
      norm_num
    simp only [total_difficulty, List.map_cons, List.map_nil,
      expected_hashes_for_note, List.sum_cons, List.sum_nil, hz2,
      Real.rpow_natCast]
    norm_num
  have hq : quantize_nearest (Real.logb 2 (4 : ℝ)) = ⟨2, 0⟩ := by
    have hfl : ⌊Real.logb 2 (4 : ℝ)⌋ = 2 := by
      rw [logb_two_four]
      rw [show (2 : ℝ) = ((2 : ℤ) : ℝ) by norm_num, Int.floor_intCast]
    have hr : round ((Real.logb 2 (4 : ℝ) - ((2 : ℤ) : ℝ)) * 100) = 0 := by
      rw [logb_two_four,
        show ((2 : ℝ) - ((2 : ℤ) : ℝ)) * 100 = ((0 : ℤ) : ℝ) by push_cast; ring,
        round_intCast]
    rw [quantize_nearest_def, hfl, hr, if_neg (by decide : ¬ (0 : ℤ) = 100)]
  have hok : combine_notes_serial [⟨2, 0⟩] = .ok ⟨2, 0⟩ := by
    have hne : ([(⟨2, 0⟩ : Sharenote)] : List Sharenote) ≠ [] := by simp
    simp only [combine_notes_serial, if_neg hne, hD, note_from_zbits]
    rw [if_neg (by rw [logb_two_four]; norm_num : ¬ Real.logb 2 (4 : ℝ) < 0), hq,
      if_pos (by decide : (⟨2, 0⟩ : Sharenote).Valid)]
  exact ((combine_notes_serial_amended.2 [⟨2, 0⟩] (by simp)
    (by intro n hn; simp only [List.mem_singleton] at hn; rw [hn]; decide)).1
    ⟨2, 0⟩ hok)

/-- C6: for a fixed note and window `t > 0`, `required_hashrate` is strictly
increasing across the catalog order Mean (k=1.0), Usually/90% (k=−ln 0.10),
Often/95% (k=−ln 0.05), Very likely/99% (k=−ln 0.01),
Almost certain/99.9% (k=−ln 0.001). -/
theorem required_hashrate_strictly_increasing (n : Sharenote) (t : ℝ) (ht : 0 < t) :
    ∃ m0 m1 m2 m3 m4 : Measurement,
      required_hashrate n t "mean" = .ok m0 ∧
      required_hashrate n t "usually" = .ok m1 ∧
      required_hashrate n t "often" = .ok m2 ∧
      required_hashrate n t "very_likely" = .ok m3 ∧
      required_hashrate n t "almost_certain" = .ok m4 ∧
      m0.value < m1.value ∧ m1.value < m2.value ∧
      m2.value < m3.value ∧ m3.value < m4.value := by
  have hnt : ¬ t ≤ 0 := not_le.mpr ht
  have hA : (0 : ℝ) < (2 : ℝ) ^ ((n.zbits : ℝ)) :=
    Real.rpow_pos_of_pos (by norm_num) _
  have key : ∀ k1 k2 : ℝ, k1 < k2 →
      k1 * (2 : ℝ) ^ ((n.zbits : ℝ)) / t < k2 * (2 : ℝ) ^ ((n.zbits : ℝ)) / t := by
    intro k1 k2 h
    exact div_lt_div_of_pos_right (mul_lt_mul_of_pos_right h hA) ht
  refine ⟨⟨1.0 * (2 : ℝ) ^ ((n.zbits : ℝ)) / t⟩,
    ⟨-(Real.log 0.10) * (2 : ℝ) ^ ((n.zbits : ℝ)) / t⟩,
    ⟨-(Real.log 0.05) * (2 : ℝ) ^ ((n.zbits : ℝ)) / t⟩,
    ⟨-(Real.log 0.01) * (2 : ℝ) ^ ((n.zbits : ℝ)) / t⟩,
    ⟨-(Real.log 0.001) * (2 : ℝ) ^ ((n.zbits : ℝ)) / t⟩,
    ?_, ?_, ?_, ?_, ?_, ?_, ?_, ?_, ?_⟩
  · simp only [required_hashrate, findLevel_mean]
    rw [if_neg hnt]
  · simp only [required_hashrate, findLevel_usually]
    rw [if_neg hnt]
  · simp only [required_hashrate, findLevel_often]
    rw [if_neg hnt]
  · simp only [required_hashrate, findLevel_very_likely]
    rw [if_neg hnt]
  · simp only [required_hashrate, findLevel_almost_certain]
    rw [if_neg hnt]
  · refine key _ _ ?_
    rw [neg_log_tenth]
    calc (1.0 : ℝ) = 1 := by norm_num
      _ < Real.log 10 := one_lt_log_ten
  · refine key _ _ ?_
    rw [neg_log_tenth, neg_log_twentieth]
    exact Real.log_lt_log (by norm_num) (by norm_num)
  · refine key _ _ ?_
    rw [neg_log_twentieth, neg_log_hundredth]
    exact Real.log_lt_log (by norm_num) (by norm_num)
  · refine key _ _ ?_
    rw [neg_log_hundredth, neg_log_thousandth]
    exact Real.log_lt_log (by norm_num) (by norm_num)

/-- Witness for C6 at the note `32Z00` and a 5-second window. -/
theorem required_hashrate_strictly_increasing_witness :
    (0 : ℝ) < 5 ∧
    ∃ m0 m1 m2 m3 m4 : Measurement,
      required_hashrate ⟨32, 0⟩ 5 "mean" = .ok m0 ∧
      required_hashrate ⟨32, 0⟩ 5 "usually" = .ok m1 ∧
      required_hashrate ⟨32, 0⟩ 5 "often" = .ok m2 ∧
      required_hashrate ⟨32, 0⟩ 5 "very_likely" = .ok m3 ∧
      required_hashrate ⟨32, 0⟩ 5 "almost_certain" = .ok m4 ∧
      m0.value < m1.value ∧ m1.value < m2.value ∧
      m2.value < m3.value ∧ m3.value < m4.value :=
  ⟨by norm_num, required_hashrate_strictly_increasing ⟨32, 0⟩ 5 (by norm_num)⟩

/-- C10: the Planner helper `_compute_best_note` is total: for `hps ≤ 0` it returns
`(None, "Enter a hashrate greater than 0 to see what you can print.")` without
touching the library (the statement holds for every library behaviour `f`), and for
`hps > 0` it never propagates a `SharenoteError`: the result is either the note or
`(None, str(exc))`. -/
theorem compute_best_note_total
    (f : ℝ → ℤ → String → Except SharenoteError Sharenote)
    (hps : ℝ) (seconds : ℤ) (levelId : String) :
    (hps ≤ 0 →
      compute_best_note f hps seconds levelId =
        (none, some "Enter a hashrate greater than 0 to see what you can print.")) ∧
    (0 < hps →
      (∃ n, f hps seconds levelId = .ok n ∧
          compute_best_note f hps seconds levelId = (some n, none)) ∨
      (∃ e, f hps seconds levelId = .error e ∧
          compute_best_note f hps seconds levelId = (none, some e.message))) := by
  constructor
  · intro h
    simp [compute_best_note, h]
  · intro h
    have hng : ¬ hps ≤ 0 := not_le.mpr h
    cases hf : f hps seconds levelId with
    | ok n => exact Or.inl ⟨n, rfl, by simp [compute_best_note, hng, hf]⟩
    | error e => exact Or.inr ⟨e, rfl, by simp [compute_best_note, hng, hf]⟩

/-- Witness for C10 at a concrete non-positive hashrate and a concrete library
behaviour. -/
theorem compute_best_note_total_witness :
    compute_best_note (fun _ _ _ => .error .hashrateTooLow) (-1) 5 "mean" =
      (none, some "Enter a hashrate greater than 0 to see what you can print.") :=
  (compute_best_note_total (fun _ _ _ => .error .hashrateTooLow) (-1) 5 "mean").1
    (by norm_num)

theorem digitChar_isDigit {d : ℕ} (hd : d < 10) : isDigitChar (digitChar d) = true := by
  interval_cases d <;> decide

theorem digitChar_not_Z {d : ℕ} (hd : d < 10) : isZChar (digitChar d) = false := by
  interval_cases d <;> decide

theorem digitChar_not_ws {d : ℕ} (hd : d < 10) :
    (digitChar d).isWhitespace = false := by
  interval_cases d <;> decide

theorem digitChar_decode {d : ℕ} (hd : d < 10) : (digitChar d).toNat - 48 = d := by
  interval_cases d <;> decide

/-- Every character of a decimal rendering is the image of a digit below 10. -/
theorem natDecChars_mem {m : ℕ} {c : Char} (hc : c ∈ natDecChars m) :
    ∃ d, d < 10 ∧ c = digitChar d := by
  simp only [natDecChars, List.mem_reverse, List.mem_map] at hc
  obtain ⟨d, hd, rfl⟩ := hc
  exact ⟨d, Nat.digits_lt_base (by norm_num) hd, rfl⟩

/-- `splitAtZ` splits exactly at the separator when the prefix has no `Z`. -/
theorem splitAtZ_append (pre r : List Char)
    (hpre : ∀ c ∈ pre, isZChar c = false) :
    splitAtZ (pre ++ 'Z' :: r) = some (pre, r) := by
  induction pre with
  | nil => rfl
  | cons c cs ih =>
    have hc : isZChar c = false := hpre c (List.mem_cons_self c cs)
    have ih2 := ih (fun x hx => hpre x (List.mem_cons_of_mem c hx))
    simp only [List.cons_append, splitAtZ, hc]
    have ih3 : splitAtZ (cs.append ('Z' :: r)) = some (cs, r) := ih2
    rw [ih3]
    simp

theorem dropWhile_all_false {p : Char → Bool} (cs : List Char)
    (h : ∀ c ∈ cs, p c = false) : cs.dropWhile p = cs := by
  cases cs with
  | nil => rfl
  | cons c rest =>
    rw [List.dropWhile_cons, h c (List.mem_cons_self c rest)]
    simp

/-- Trimming leaves a fully non-whitespace list unchanged. -/
theorem trimChars_all_not_ws (cs : List Char)
    (h : ∀ c ∈ cs, c.isWhitespace = false) : trimChars cs = cs := by
  unfold trimChars
  rw [dropWhile_all_false cs h,
    dropWhile_all_false cs.reverse (fun c hc => h c (List.mem_reverse.mp hc)),
    List.reverse_reverse]

/-- Parsing the decimal rendering of a natural number recovers it. -/
theorem parseDigits_natDecChars (m : ℕ) : parseDigits (natDecChars m) = m := by
  unfold parseDigits natDecChars
  rw [List.map_reverse, List.reverse_reverse, List.map_map]
  have h1 : (Nat.digits 10 m).map ((fun c => c.toNat - 48) ∘ digitChar) =
      Nat.digits 10 m := by
    conv_rhs => rw [← List.map_id (Nat.digits 10 m)]
    apply List.map_congr_left
    intro d hd
    exact digitChar_decode (Nat.digits_lt_base (by norm_num) hd)
  rw [h1, Nat.ofDigits_digits]

/-- Parsing a two-digit cents rendering recovers the cents value. -/
theorem parseDigits_two_digits {c : ℕ} (hc : c < 100) :
    parseDigits [digitChar (c / 10), digitChar (c % 10)] = c := by
  unfold parseDigits
  simp only [List.map_cons, List.map_nil, List.reverse_cons, List.reverse_nil,
    List.nil_append, List.singleton_append]
  rw [digitChar_decode (by omega : c / 10 < 10),
    digitChar_decode (Nat.mod_lt c (by norm_num))]
  simp [Nat.ofDigits]
  omega

/-- `ensure_note` after a successful split is the digit/length/range check chain. -/
theorem ensure_note_split (s : String) (l r : List Char)
    (h : splitAtZ (trimChars s.toList) = some (l, r)) :
    ensure_note s =
      (if l = [] then .error .invalidLabel
       else if ¬ (l.all isDigitChar) then .error .invalidLabel
       else if r.length ≠ 2 then .error .invalidLabel
       else if ¬ (r.all isDigitChar) then .error .invalidLabel
       else
         if (⟨(parseDigits l : ℤ), (parseDigits r : ℤ)⟩ : Sharenote).Valid
         then .ok ⟨(parseDigits l : ℤ), (parseDigits r : ℤ)⟩
         else .error .outOfRange) := by
  simp only [ensure_note]
  rw [h]

/-- C5: the canonical label of a validly constructed note parses back to the same
note: `ensure_note(note_from_components(z, cents).label) = note_from_components(z,
cents)` for all `(z, cents)` within the §3 invariants. -/
theorem ensure_note_roundtrip (z c : ℤ) (hz1 : MIN_ZEROS ≤ z) (hz2 : z ≤ MAX_ZEROS)
    (hc1 : 0 ≤ c) (hc2 : c ≤ MAX_CENTZ) :
    note_from_components z c = .ok ⟨z, c⟩ ∧
    ensure_note (Sharenote.label ⟨z, c⟩) = .ok ⟨z, c⟩ := by
  have hz1' : (1 : ℤ) ≤ z := by simpa [MIN_ZEROS] using hz1
  have hc2' : c ≤ 99 := by simpa [MAX_CENTZ] using hc2
  have hval : (⟨z, c⟩ : Sharenote).Valid :=
    ⟨hz1, hz2, by simpa [MIN_CENTZ] using hc1, hc2⟩
  constructor
  · simp only [note_from_components]
    rw [if_pos hval]
  · have hznz : z = (z.toNat : ℤ) := (Int.toNat_of_nonneg (by omega)).symm
    have hcnz : c = (c.toNat : ℤ) := (Int.toNat_of_nonneg hc1).symm
    have hzn_pos : 0 < z.toNat := by omega
    have hcn_lt : c.toNat < 100 := by omega
    have hlabel : (Sharenote.label ⟨z, c⟩).toList =
        natDecChars z.toNat ++
          'Z' :: [digitChar (c.toNat / 10), digitChar (c.toNat % 10)] := rfl
    have hnw : ∀ ch ∈ natDecChars z.toNat ++
        'Z' :: [digitChar (c.toNat / 10), digitChar (c.toNat % 10)],
        ch.isWhitespace = false := by
      intro ch hch
      rcases List.mem_append.mp hch with h | h
      · obtain ⟨d, hd, rfl⟩ := natDecChars_mem h
        exact digitChar_not_ws hd
      · simp only [List.mem_cons, List.not_mem_nil, or_false] at h
        rcases h with rfl | rfl | rfl
        · decide
        · exact digitChar_not_ws (by omega)
        · exact digitChar_not_ws (Nat.mod_lt _ (by norm_num))
    have hpre : ∀ ch ∈ natDecChars z.toNat, isZChar ch = false := by
      intro ch hch
      obtain ⟨d, hd, rfl⟩ := natDecChars_mem hch
      exact digitChar_not_Z hd
    have hsplit : splitAtZ (trimChars (Sharenote.label ⟨z, c⟩).toList) =
        some (natDecChars z.toNat,
          [digitChar (c.toNat / 10), digitChar (c.toNat % 10)]) := by
      rw [hlabel, trimChars_all_not_ws _ hnw, splitAtZ_append _ _ hpre]
    rw [ensure_note_split _ _ _ hsplit]
    have hne : ¬ (natDecChars z.toNat = []) := by
      simp only [natDecChars, List.reverse_eq_nil_iff, List.map_eq_nil_iff]
      exact Nat.digits_ne_nil_iff_ne_zero.mpr (by omega)
    have hdig1 : (natDecChars z.toNat).all isDigitChar = true := by
      rw [List.all_eq_true]
      intro ch hch
      obtain ⟨d, hd, rfl⟩ := natDecChars_mem hch
      exact digitChar_isDigit hd
    have hdig2 : ([digitChar (c.toNat / 10), digitChar (c.toNat % 10)]).all
        isDigitChar = true := by
      simp only [List.all_cons, List.all_nil, Bool.and_true]
      rw [digitChar_isDigit (by omega : c.toNat / 10 < 10),
        digitChar_isDigit (Nat.mod_lt _ (by norm_num))]
      rfl
    rw [if_neg hne, if_neg (not_not_intro hdig1),
      if_neg (not_not_intro (by rfl :
        ([digitChar (c.toNat / 10), digitChar (c.toNat % 10)]).length = 2)),
      if_neg (not_not_intro hdig2),
      parseDigits_natDecChars, parseDigits_two_digits hcn_lt, ← hznz, ← hcnz,
      if_pos hval]

/-- Witness for C5 at `(z, cents) = (33, 54)`: the label is the string `33Z54` and
both directions of the round trip hold. -/
theorem ensure_note_roundtrip_witness :
    Sharenote.label ⟨33, 54⟩ = "33Z54" ∧
    note_from_components 33 54 = .ok ⟨33, 54⟩ ∧
    ensure_note (Sharenote.label ⟨33, 54⟩) = .ok ⟨33, 54⟩ := by
  refine ⟨?_, (ensure_note_roundtrip 33 54 (by decide) (by decide) (by decide)
      (by decide)).1,
    (ensure_note_roundtrip 33 54 (by decide) (by decide) (by decide)
      (by decide)).2⟩
  show String.mk (Sharenote.labelChars ⟨33, 54⟩) = "33Z54"
  have h1 : Sharenote.labelChars ⟨33, 54⟩ = ['3', '3', 'Z', '5', '4'] := by
    have h2 : ((⟨33, 54⟩ : Sharenote).z).toNat = 33 := rfl
    have h3 : ((⟨33, 54⟩ : Sharenote).cents).toNat = 54 := rfl
    simp only [Sharenote.labelChars, h2, h3]
    norm_num [natDecChars]
    decide
  rw [h1]

/-- C9: for every positive value, `human_hashrate` selects the largest unit of the
decimal ladder (powers of 1000) whose scaled value is `≥ 1` (falling back to the
smallest unit `H/s` when the value is below 1), divides by its factor, and renders
the scaled value with fixed significant digits followed by the unit suffix. -/
theorem human_hashrate_spec (v : ℚ) (_hv : 0 < v) :
    human_hashrate v =
      ((pick_unit v).1, v / (pick_unit v).2,
        formatScaled (v / (pick_unit v).2) ++ " " ++ (pick_unit v).1) ∧
    pick_unit v ∈ UNIT_FACTORS ∧
    ((1 ≤ v / (pick_unit v).2 ∧
        ∀ w ∈ UNIT_FACTORS, (pick_unit v).2 < w.2 → v / w.2 < 1) ∨
      (v < 1 ∧ pick_unit v = ("H/s", 1))) := by
  rcases lt_or_le v 1 with hup0 | hlo0
  · have c0 : ¬ (1 : ℚ) ≤ v := not_le.mpr hup0
    have c1 : ¬ ((10 : ℚ) ^ 3) ≤ v := fun hc => absurd (lt_of_lt_of_le hup0 (le_trans (by norm_num) hc)) (lt_irrefl v)
    have c2 : ¬ ((10 : ℚ) ^ 6) ≤ v := fun hc => absurd (lt_of_lt_of_le hup0 (le_trans (by norm_num) hc)) (lt_irrefl v)
    have c3 : ¬ ((10 : ℚ) ^ 9) ≤ v := fun hc => absurd (lt_of_lt_of_le hup0 (le_trans (by norm_num) hc)) (lt_irrefl v)
    have c4 : ¬ ((10 : ℚ) ^ 12) ≤ v := fun hc => absurd (lt_of_lt_of_le hup0 (le_trans (by norm_num) hc)) (lt_irrefl v)
    have c5 : ¬ ((10 : ℚ) ^ 15) ≤ v := fun hc => absurd (lt_of_lt_of_le hup0 (le_trans (by norm_num) hc)) (lt_irrefl v)
    have c6 : ¬ ((10 : ℚ) ^ 18) ≤ v := fun hc => absurd (lt_of_lt_of_le hup0 (le_trans (by norm_num) hc)) (lt_irrefl v)
    have c7 : ¬ ((10 : ℚ) ^ 21) ≤ v := fun hc => absurd (lt_of_lt_of_le hup0 (le_trans (by norm_num) hc)) (lt_irrefl v)
    have c8 : ¬ ((10 : ℚ) ^ 24) ≤ v := fun hc => absurd (lt_of_lt_of_le hup0 (le_trans (by norm_num) hc)) (lt_irrefl v)
    have hfil : UNIT_FACTORS.filter (fun u => u.2 ≤ v) = ([] : List (String × ℚ)) := by
      simp only [UNIT_FACTORS, List.filter_cons, List.filter_nil, decide_eq_true_eq]
      rw [if_neg c0, if_neg c1, if_neg c2, if_neg c3, if_neg c4, if_neg c5, if_neg c6, if_neg c7, if_neg c8]
    have hpick : pick_unit v = ("H/s", 1) := by
      simp only [pick_unit]
      rw [hfil]
      rfl
    refine ⟨rfl, ?_, Or.inr ⟨hup0, hpick⟩⟩
    rw [hpick]
    simp [UNIT_FACTORS]
  · rcases lt_or_le v ((10 : ℚ) ^ 3) with hup1 | hlo1
    · have c0 : (1 : ℚ) ≤ v := hlo0
      have c1 : ¬ ((10 : ℚ) ^ 3) ≤ v := not_le.mpr hup1
      have c2 : ¬ ((10 : ℚ) ^ 6) ≤ v := fun hc => absurd (lt_of_lt_of_le hup1 (le_trans (by norm_num) hc)) (lt_irrefl v)
      have c3 : ¬ ((10 : ℚ) ^ 9) ≤ v := fun hc => absurd (lt_of_lt_of_le hup1 (le_trans (by norm_num) hc)) (lt_irrefl v)
      have c4 : ¬ ((10 : ℚ) ^ 12) ≤ v := fun hc => absurd (lt_of_lt_of_le hup1 (le_trans (by norm_num) hc)) (lt_irrefl v)
      have c5 : ¬ ((10 : ℚ) ^ 15) ≤ v := fun hc => absurd (lt_of_lt_of_le hup1 (le_trans (by norm_num) hc)) (lt_irrefl v)
      have c6 : ¬ ((10 : ℚ) ^ 18) ≤ v := fun hc => absurd (lt_of_lt_of_le hup1 (le_trans (by norm_num) hc)) (lt_irrefl v)
      have c7 : ¬ ((10 : ℚ) ^ 21) ≤ v := fun hc => absurd (lt_of_lt_of_le hup1 (le_trans (by norm_num) hc)) (lt_irrefl v)
      have c8 : ¬ ((10 : ℚ) ^ 24) ≤ v := fun hc => absurd (lt_of_lt_of_le hup1 (le_trans (by norm_num) hc)) (lt_irrefl v)
      have hfil : UNIT_FACTORS.filter (fun u => u.2 ≤ v) = ([("H/s", 1)] : List (String × ℚ)) := by
        simp only [UNIT_FACTORS, List.filter_cons, List.filter_nil, decide_eq_true_eq]
        rw [if_pos c0, if_neg c1, if_neg c2, if_neg c3, if_neg c4, if_neg c5, if_neg c6, if_neg c7, if_neg c8]
      have hpick : pick_unit v = ("H/s", 1) := by
        simp only [pick_unit]
        rw [hfil]
        rfl
      refine ⟨rfl, ?_, Or.inl ⟨?_, ?_⟩⟩
      · rw [hpick]
        simp [UNIT_FACTORS]
      · rw [hpick]
        rw [le_div_iff₀ (by norm_num : (0 : ℚ) < 1)]
        linarith
      · have hjump : ∀ w ∈ UNIT_FACTORS, (1 : ℚ) < w.2 → ((10 : ℚ) ^ 3) ≤ w.2 := by decide
        intro w hw hgt
        rw [hpick] at hgt
        have hB : ((10 : ℚ) ^ 3) ≤ w.2 := hjump w hw hgt
        have hwpos : (0 : ℚ) < w.2 := lt_of_lt_of_le (by norm_num) hB
        rw [div_lt_one hwpos]
        linarith
    · rcases lt_or_le v ((10 : ℚ) ^ 6) with hup2 | hlo2
      · have c0 : (1 : ℚ) ≤ v := le_trans (by norm_num) hlo1
        have c1 : ((10 : ℚ) ^ 3) ≤ v := hlo1
        have c2 : ¬ ((10 : ℚ) ^ 6) ≤ v := not_le.mpr hup2
        have c3 : ¬ ((10 : ℚ) ^ 9) ≤ v := fun hc => absurd (lt_of_lt_of_le hup2 (le_trans (by norm_num) hc)) (lt_irrefl v)
        have c4 : ¬ ((10 : ℚ) ^ 12) ≤ v := fun hc => absurd (lt_of_lt_of_le hup2 (le_trans (by norm_num) hc)) (lt_irrefl v)
        have c5 : ¬ ((10 : ℚ) ^ 15) ≤ v := fun hc => absurd (lt_of_lt_of_le hup2 (le_trans (by norm_num) hc)) (lt_irrefl v)
        have c6 : ¬ ((10 : ℚ) ^ 18) ≤ v := fun hc => absurd (lt_of_lt_of_le hup2 (le_trans (by norm_num) hc)) (lt_irrefl v)
        have c7 : ¬ ((10 : ℚ) ^ 21) ≤ v := fun hc => absurd (lt_of_lt_of_le hup2 (le_trans (by norm_num) hc)) (lt_irrefl v)
        have c8 : ¬ ((10 : ℚ) ^ 24) ≤ v := fun hc => absurd (lt_of_lt_of_le hup2 (le_trans (by norm_num) hc)) (lt_irrefl v)
        have hfil : UNIT_FACTORS.filter (fun u => u.2 ≤ v) = ([("H/s", 1), ("kH/s", 10 ^ 3)] : List (String × ℚ)) := by
          simp only [UNIT_FACTORS, List.filter_cons, List.filter_nil, decide_eq_true_eq]
          rw [if_pos c0, if_pos c1, if_neg c2, if_neg c3, if_neg c4, if_neg c5, if_neg c6, if_neg c7, if_neg c8]
        have hpick : pick_unit v = ("kH/s", 10 ^ 3) := by
          simp only [pick_unit]
          rw [hfil]
          rfl
        refine ⟨rfl, ?_, Or.inl ⟨?_, ?_⟩⟩
        · rw [hpick]
          simp [UNIT_FACTORS]
        · rw [hpick]
          rw [le_div_iff₀ (by norm_num : (0 : ℚ) < 10 ^ 3)]
          linarith
        · have hjump : ∀ w ∈ UNIT_FACTORS, ((10 : ℚ) ^ 3) < w.2 → ((10 : ℚ) ^ 6) ≤ w.2 := by decide
          intro w hw hgt
          rw [hpick] at hgt
          have hB : ((10 : ℚ) ^ 6) ≤ w.2 := hjump w hw hgt
          have hwpos : (0 : ℚ) < w.2 := lt_of_lt_of_le (by norm_num) hB
          rw [div_lt_one hwpos]
          linarith
      · rcases lt_or_le v ((10 : ℚ) ^ 9) with hup3 | hlo3
        · have c0 : (1 : ℚ) ≤ v := le_trans (by norm_num) hlo2
          have c1 : ((10 : ℚ) ^ 3) ≤ v := le_trans (by norm_num) hlo2
          have c2 : ((10 : ℚ) ^ 6) ≤ v := hlo2
          have c3 : ¬ ((10 : ℚ) ^ 9) ≤ v := not_le.mpr hup3
          have c4 : ¬ ((10 : ℚ) ^ 12) ≤ v := fun hc => absurd (lt_of_lt_of_le hup3 (le_trans (by norm_num) hc)) (lt_irrefl v)
          have c5 : ¬ ((10 : ℚ) ^ 15) ≤ v := fun hc => absurd (lt_of_lt_of_le hup3 (le_trans (by norm_num) hc)) (lt_irrefl v)
          have c6 : ¬ ((10 : ℚ) ^ 18) ≤ v := fun hc => absurd (lt_of_lt_of_le hup3 (le_trans (by norm_num) hc)) (lt_irrefl v)
          have c7 : ¬ ((10 : ℚ) ^ 21) ≤ v := fun hc => absurd (lt_of_lt_of_le hup3 (le_trans (by norm_num) hc)) (lt_irrefl v)
          have c8 : ¬ ((10 : ℚ) ^ 24) ≤ v := fun hc => absurd (lt_of_lt_of_le hup3 (le_trans (by norm_num) hc)) (lt_irrefl v)
          have hfil : UNIT_FACTORS.filter (fun u => u.2 ≤ v) = ([("H/s", 1), ("kH/s", 10 ^ 3), ("MH/s", 10 ^ 6)] : List (String × ℚ)) := by
            simp only [UNIT_FACTORS, List.filter_cons, List.filter_nil, decide_eq_true_eq]
            rw [if_pos c0, if_pos c1, if_pos c2, if_neg c3, if_neg c4, if_neg c5, if_neg c6, if_neg c7, if_neg c8]
          have hpick : pick_unit v = ("MH/s", 10 ^ 6) := by
            simp only [pick_unit]
            rw [hfil]
            rfl
          refine ⟨rfl, ?_, Or.inl ⟨?_, ?_⟩⟩
          · rw [hpick]
            simp [UNIT_FACTORS]
          · rw [hpick]
            rw [le_div_iff₀ (by norm_num : (0 : ℚ) < 10 ^ 6)]
            linarith
          · have hjump : ∀ w ∈ UNIT_FACTORS, ((10 : ℚ) ^ 6) < w.2 → ((10 : ℚ) ^ 9) ≤ w.2 := by decide
            intro w hw hgt
            rw [hpick] at hgt
            have hB : ((10 : ℚ) ^ 9) ≤ w.2 := hjump w hw hgt
            have hwpos : (0 : ℚ) < w.2 := lt_of_lt_of_le (by norm_num) hB
            rw [div_lt_one hwpos]
            linarith
        · rcases lt_or_le v ((10 : ℚ) ^ 12) with hup4 | hlo4
          · have c0 : (1 : ℚ) ≤ v := le_trans (by norm_num) hlo3
            have c1 : ((10 : ℚ) ^ 3) ≤ v := le_trans (by norm_num) hlo3
            have c2 : ((10 : ℚ) ^ 6) ≤ v := le_trans (by norm_num) hlo3
            have c3 : ((10 : ℚ) ^ 9) ≤ v := hlo3
            have c4 : ¬ ((10 : ℚ) ^ 12) ≤ v := not_le.mpr hup4
            have c5 : ¬ ((10 : ℚ) ^ 15) ≤ v := fun hc => absurd (lt_of_lt_of_le hup4 (le_trans (by norm_num) hc)) (lt_irrefl v)
            have c6 : ¬ ((10 : ℚ) ^ 18) ≤ v := fun hc => absurd (lt_of_lt_of_le hup4 (le_trans (by norm_num) hc)) (lt_irrefl v)
            have c7 : ¬ ((10 : ℚ) ^ 21) ≤ v := fun hc => absurd (lt_of_lt_of_le hup4 (le_trans (by norm_num) hc)) (lt_irrefl v)
            have c8 : ¬ ((10 : ℚ) ^ 24) ≤ v := fun hc => absurd (lt_of_lt_of_le hup4 (le_trans (by norm_num) hc)) (lt_irrefl v)
            have hfil : UNIT_FACTORS.filter (fun u => u.2 ≤ v) = ([("H/s", 1), ("kH/s", 10 ^ 3), ("MH/s", 10 ^ 6), ("GH/s", 10 ^ 9)] : List (String × ℚ)) := by
              simp only [UNIT_FACTORS, List.filter_cons, List.filter_nil, decide_eq_true_eq]
              rw [if_pos c0, if_pos c1, if_pos c2, if_pos c3, if_neg c4, if_neg c5, if_neg c6, if_neg c7, if_neg c8]
            have hpick : pick_unit v = ("GH/s", 10 ^ 9) := by
              simp only [pick_unit]
              rw [hfil]
              rfl
            refine ⟨rfl, ?_, Or.inl ⟨?_, ?_⟩⟩
            · rw [hpick]
              simp [UNIT_FACTORS]
            · rw [hpick]
              rw [le_div_iff₀ (by norm_num : (0 : ℚ) < 10 ^ 9)]
              linarith
            · have hjump : ∀ w ∈ UNIT_FACTORS, ((10 : ℚ) ^ 9) < w.2 → ((10 : ℚ) ^ 12) ≤ w.2 := by decide
              intro w hw hgt
              rw [hpick] at hgt
              have hB : ((10 : ℚ) ^ 12) ≤ w.2 := hjump w hw hgt
              have hwpos : (0 : ℚ) < w.2 := lt_of_lt_of_le (by norm_num) hB
              rw [div_lt_one hwpos]
              linarith
          · rcases lt_or_le v ((10 : ℚ) ^ 15) with hup5 | hlo5
            · have c0 : (1 : ℚ) ≤ v := le_trans (by norm_num) hlo4
              have c1 : ((10 : ℚ) ^ 3) ≤ v := le_trans (by norm_num) hlo4
              have c2 : ((10 : ℚ) ^ 6) ≤ v := le_trans (by norm_num) hlo4
              have c3 : ((10 : ℚ) ^ 9) ≤ v := le_trans (by norm_num) hlo4
              have c4 : ((10 : ℚ) ^ 12) ≤ v := hlo4
              have c5 : ¬ ((10 : ℚ) ^ 15) ≤ v := not_le.mpr hup5
              have c6 : ¬ ((10 : ℚ) ^ 18) ≤ v := fun hc => absurd (lt_of_lt_of_le hup5 (le_trans (by norm_num) hc)) (lt_irrefl v)
              have c7 : ¬ ((10 : ℚ) ^ 21) ≤ v := fun hc => absurd (lt_of_lt_of_le hup5 (le_trans (by norm_num) hc)) (lt_irrefl v)
              have c8 : ¬ ((10 : ℚ) ^ 24) ≤ v := fun hc => absurd (lt_of_lt_of_le hup5 (le_trans (by norm_num) hc)) (lt_irrefl v)
              have hfil : UNIT_FACTORS.filter (fun u => u.2 ≤ v) = ([("H/s", 1), ("kH/s", 10 ^ 3), ("MH/s", 10 ^ 6), ("GH/s", 10 ^ 9), ("TH/s", 10 ^ 12)] : List (String × ℚ)) := by
                simp only [UNIT_FACTORS, List.filter_cons, List.filter_nil, decide_eq_true_eq]
                rw [if_pos c0, if_pos c1, if_pos c2, if_pos c3, if_pos c4, if_neg c5, if_neg c6, if_neg c7, if_neg c8]
              have hpick : pick_unit v = ("TH/s", 10 ^ 12) := by
                simp only [pick_unit]
                rw [hfil]
                rfl
              refine ⟨rfl, ?_, Or.inl ⟨?_, ?_⟩⟩
              · rw [hpick]
                simp [UNIT_FACTORS]
              · rw [hpick]
                rw [le_div_iff₀ (by norm_num : (0 : ℚ) < 10 ^ 12)]
                linarith
              · have hjump : ∀ w ∈ UNIT_FACTORS, ((10 : ℚ) ^ 12) < w.2 → ((10 : ℚ) ^ 15) ≤ w.2 := by decide
                intro w hw hgt
                rw [hpick] at hgt
                have hB : ((10 : ℚ) ^ 15) ≤ w.2 := hjump w hw hgt
                have hwpos : (0 : ℚ) < w.2 := lt_of_lt_of_le (by norm_num) hB
                rw [div_lt_one hwpos]
                linarith
            · rcases lt_or_le v ((10 : ℚ) ^ 18) with hup6 | hlo6
              · have c0 : (1 : ℚ) ≤ v := le_trans (by norm_num) hlo5
                have c1 : ((10 : ℚ) ^ 3) ≤ v := le_trans (by norm_num) hlo5
                have c2 : ((10 : ℚ) ^ 6) ≤ v := le_trans (by norm_num) hlo5
                have c3 : ((10 : ℚ) ^ 9) ≤ v := le_trans (by norm_num) hlo5
                have c4 : ((10 : ℚ) ^ 12) ≤ v := le_trans (by norm_num) hlo5
                have c5 : ((10 : ℚ) ^ 15) ≤ v := hlo5
                have c6 : ¬ ((10 : ℚ) ^ 18) ≤ v := not_le.mpr hup6
                have c7 : ¬ ((10 : ℚ) ^ 21) ≤ v := fun hc => absurd (lt_of_lt_of_le hup6 (le_trans (by norm_num) hc)) (lt_irrefl v)
                have c8 : ¬ ((10 : ℚ) ^ 24) ≤ v := fun hc => absurd (lt_of_lt_of_le hup6 (le_trans (by norm_num) hc)) (lt_irrefl v)
                have hfil : UNIT_FACTORS.filter (fun u => u.2 ≤ v) = ([("H/s", 1), ("kH/s", 10 ^ 3), ("MH/s", 10 ^ 6), ("GH/s", 10 ^ 9), ("TH/s", 10 ^ 12), ("PH/s", 10 ^ 15)] : List (String × ℚ)) := by
                  simp only [UNIT_FACTORS, List.filter_cons, List.filter_nil, decide_eq_true_eq]
                  rw [if_pos c0, if_pos c1, if_pos c2, if_pos c3, if_pos c4, if_pos c5, if_neg c6, if_neg c7, if_neg c8]
                have hpick : pick_unit v = ("PH/s", 10 ^ 15) := by
                  simp only [pick_unit]
                  rw [hfil]
                  rfl
                refine ⟨rfl, ?_, Or.inl ⟨?_, ?_⟩⟩
                · rw [hpick]
                  simp [UNIT_FACTORS]
                · rw [hpick]
                  rw [le_div_iff₀ (by norm_num : (0 : ℚ) < 10 ^ 15)]
                  linarith
                · have hjump : ∀ w ∈ UNIT_FACTORS, ((10 : ℚ) ^ 15) < w.2 → ((10 : ℚ) ^ 18) ≤ w.2 := by decide
                  intro w hw hgt
                  rw [hpick] at hgt
                  have hB : ((10 : ℚ) ^ 18) ≤ w.2 := hjump w hw hgt
                  have hwpos : (0 : ℚ) < w.2 := lt_of_lt_of_le (by norm_num) hB
                  rw [div_lt_one hwpos]
                  linarith
              · rcases lt_or_le v ((10 : ℚ) ^ 21) with hup7 | hlo7
                · have c0 : (1 : ℚ) ≤ v := le_trans (by norm_num) hlo6
                  have c1 : ((10 : ℚ) ^ 3) ≤ v := le_trans (by norm_num) hlo6
                  have c2 : ((10 : ℚ) ^ 6) ≤ v := le_trans (by norm_num) hlo6
                  have c3 : ((10 : ℚ) ^ 9) ≤ v := le_trans (by norm_num) hlo6
                  have c4 : ((10 : ℚ) ^ 12) ≤ v := le_trans (by norm_num) hlo6
                  have c5 : ((10 : ℚ) ^ 15) ≤ v := le_trans (by norm_num) hlo6
                  have c6 : ((10 : ℚ) ^ 18) ≤ v := hlo6
                  have c7 : ¬ ((10 : ℚ) ^ 21) ≤ v := not_le.mpr hup7
                  have c8 : ¬ ((10 : ℚ) ^ 24) ≤ v := fun hc => absurd (lt_of_lt_of_le hup7 (le_trans (by norm_num) hc)) (lt_irrefl v)
                  have hfil : UNIT_FACTORS.filter (fun u => u.2 ≤ v) = ([("H/s", 1), ("kH/s", 10 ^ 3), ("MH/s", 10 ^ 6), ("GH/s", 10 ^ 9), ("TH/s", 10 ^ 12), ("PH/s", 10 ^ 15), ("EH/s", 10 ^ 18)] : List (String × ℚ)) := by
                    simp only [UNIT_FACTORS, List.filter_cons, List.filter_nil, decide_eq_true_eq]
                    rw [if_pos c0, if_pos c1, if_pos c2, if_pos c3, if_pos c4, if_pos c5, if_pos c6, if_neg c7, if_neg c8]
                  have hpick : pick_unit v = ("EH/s", 10 ^ 18) := by
                    simp only [pick_unit]
                    rw [hfil]
                    rfl
                  refine ⟨rfl, ?_, Or.inl ⟨?_, ?_⟩⟩
                  · rw [hpick]
                    simp [UNIT_FACTORS]
                  · rw [hpick]
                    rw [le_div_iff₀ (by norm_num : (0 : ℚ) < 10 ^ 18)]
                    linarith
                  · have hjump : ∀ w ∈ UNIT_FACTORS, ((10 : ℚ) ^ 18) < w.2 → ((10 : ℚ) ^ 21) ≤ w.2 := by decide
                    intro w hw hgt
                    rw [hpick] at hgt
                    have hB : ((10 : ℚ) ^ 21) ≤ w.2 := hjump w hw hgt
                    have hwpos : (0 : ℚ) < w.2 := lt_of_lt_of_le (by norm_num) hB
                    rw [div_lt_one hwpos]
                    linarith
                · rcases lt_or_le v ((10 : ℚ) ^ 24) with hup8 | hlo8
                  · have c0 : (1 : ℚ) ≤ v := le_trans (by norm_num) hlo7
                    have c1 : ((10 : ℚ) ^ 3) ≤ v := le_trans (by norm_num) hlo7
                    have c2 : ((10 : ℚ) ^ 6) ≤ v := le_trans (by norm_num) hlo7
                    have c3 : ((10 : ℚ) ^ 9) ≤ v := le_trans (by norm_num) hlo7
                    have c4 : ((10 : ℚ) ^ 12) ≤ v := le_trans (by norm_num) hlo7
                    have c5 : ((10 : ℚ) ^ 15) ≤ v := le_trans (by norm_num) hlo7
                    have c6 : ((10 : ℚ) ^ 18) ≤ v := le_trans (by norm_num) hlo7
                    have c7 : ((10 : ℚ) ^ 21) ≤ v := hlo7
                    have c8 : ¬ ((10 : ℚ) ^ 24) ≤ v := not_le.mpr hup8
                    have hfil : UNIT_FACTORS.filter (fun u => u.2 ≤ v) = ([("H/s", 1), ("kH/s", 10 ^ 3), ("MH/s", 10 ^ 6), ("GH/s", 10 ^ 9), ("TH/s", 10 ^ 12), ("PH/s", 10 ^ 15), ("EH/s", 10 ^ 18), ("ZH/s", 10 ^ 21)] : List (String × ℚ)) := by
                      simp only [UNIT_FACTORS, List.filter_cons, List.filter_nil, decide_eq_true_eq]
                      rw [if_pos c0, if_pos c1, if_pos c2, if_pos c3, if_pos c4, if_pos c5, if_pos c6, if_pos c7, if_neg c8]
                    have hpick : pick_unit v = ("ZH/s", 10 ^ 21) := by
                      simp only [pick_unit]
                      rw [hfil]
                      rfl
                    refine ⟨rfl, ?_, Or.inl ⟨?_, ?_⟩⟩
                    · rw [hpick]
                      simp [UNIT_FACTORS]
                    · rw [hpick]
                      rw [le_div_iff₀ (by norm_num : (0 : ℚ) < 10 ^ 21)]
                      linarith
                    · have hjump : ∀ w ∈ UNIT_FACTORS, ((10 : ℚ) ^ 21) < w.2 → ((10 : ℚ) ^ 24) ≤ w.2 := by decide
                      intro w hw hgt
                      rw [hpick] at hgt
                      have hB : ((10 : ℚ) ^ 24) ≤ w.2 := hjump w hw hgt
                      have hwpos : (0 : ℚ) < w.2 := lt_of_lt_of_le (by norm_num) hB
                      rw [div_lt_one hwpos]
                      linarith
                  · have c0 : (1 : ℚ) ≤ v := le_trans (by norm_num) hlo8
                    have c1 : ((10 : ℚ) ^ 3) ≤ v := le_trans (by norm_num) hlo8
                    have c2 : ((10 : ℚ) ^ 6) ≤ v := le_trans (by norm_num) hlo8
                    have c3 : ((10 : ℚ) ^ 9) ≤ v := le_trans (by norm_num) hlo8
                    have c4 : ((10 : ℚ) ^ 12) ≤ v := le_trans (by norm_num) hlo8
                    have c5 : ((10 : ℚ) ^ 15) ≤ v := le_trans (by norm_num) hlo8
                    have c6 : ((10 : ℚ) ^ 18) ≤ v := le_trans (by norm_num) hlo8
                    have c7 : ((10 : ℚ) ^ 21) ≤ v := le_trans (by norm_num) hlo8
                    have c8 : ((10 : ℚ) ^ 24) ≤ v := hlo8
                    have hfil : UNIT_FACTORS.filter (fun u => u.2 ≤ v) = ([("H/s", 1), ("kH/s", 10 ^ 3), ("MH/s", 10 ^ 6), ("GH/s", 10 ^ 9), ("TH/s", 10 ^ 12), ("PH/s", 10 ^ 15), ("EH/s", 10 ^ 18), ("ZH/s", 10 ^ 21), ("YH/s", 10 ^ 24)] : List (String × ℚ)) := by
                      simp only [UNIT_FACTORS, List.filter_cons, List.filter_nil, decide_eq_true_eq]
                      rw [if_pos c0, if_pos c1, if_pos c2, if_pos c3, if_pos c4, if_pos c5, if_pos c6, if_pos c7, if_pos c8]
                    have hpick : pick_unit v = ("YH/s", 10 ^ 24) := by
                      simp only [pick_unit]
                      rw [hfil]
                      rfl
                    refine ⟨rfl, ?_, Or.inl ⟨?_, ?_⟩⟩
                    · rw [hpick]
                      simp [UNIT_FACTORS]
                    · rw [hpick]
                      rw [le_div_iff₀ (by norm_num : (0 : ℚ) < 10 ^ 24)]
                      linarith
                    · have htop : ∀ w ∈ UNIT_FACTORS, ¬ ((10 : ℚ) ^ 24) < w.2 := by decide
                      intro w hw hgt
                      rw [hpick] at hgt
                      exact absurd hgt (htop w hw)

/-- Witness for C9 at `1500 H/s`: the unit chosen is `kH/s`. -/
theorem human_hashrate_spec_witness :
    (0 : ℚ) < 1500 ∧
    (human_hashrate 1500 =
      ((pick_unit 1500).1, 1500 / (pick_unit 1500).2,
        formatScaled (1500 / (pick_unit 1500).2) ++ " " ++ (pick_unit 1500).1) ∧
    pick_unit 1500 ∈ UNIT_FACTORS ∧
    ((1 ≤ 1500 / (pick_unit 1500).2 ∧
        ∀ w ∈ UNIT_FACTORS, (pick_unit 1500).2 < w.2 → 1500 / w.2 < 1) ∨
      ((1500 : ℚ) < 1 ∧ pick_unit 1500 = ("H/s", 1)))) :=
  ⟨by norm_num, human_hashrate_spec 1500 (by norm_num)⟩

end SharenotePlanner
